import Mathlib

/-!
Verification of the debt-settlement core of the SplitSync expense tracker.

The source is `src/app.py`.  The computational core consists of
`calculate_debts(expenses, members)` (lines 330-379), which first reduces the
expense list to one signed balance per member and then runs a greedy
two-pointer sweep turning balances into pairwise transactions, and the inline
settlement-reconciliation loop of the "Settle Expenses" view (lines 1421-1432).

Modelling choices:
* Python floats are embedded as exact rationals (`ℚ`); all tolerance constants
  (`0.01`) are the exact rational 1/100.
* The Python dict `balances = {m: 0.0 for m in members}` is embedded as an
  association list whose keys are the members in first-occurrence order
  (`dedupFirst`), matching dict insertion-order semantics.  The source's
  `if person in balances: balances[person] += ...` guard is subsumed by
  `updateBal`, which leaves the list unchanged when the key is absent.
* Python's stable `list.sort` is embedded as a stable insertion sort
  (`sortAsc` / `sortDesc`); any stable sort by the same key computes the same
  list, so this is extensionally the source's sort.
* The `while i < len(debtors) and j < len(creditors)` loop is embedded as the
  fuel-indexed recursion `loopAux`; advancing a pointer past an entry becomes
  consuming the head of the corresponding list.  `simplifyDebts` runs the loop
  with fuel `|debtors| + |creditors|`, which is proved sufficient
  (`loopAux_isSome`), so the `Option.getD []` never takes its default on the
  partitions the function itself constructs.
-/

/-- An expense record, restricted to the fields read by `calculate_debts`
(src/app.py lines 333-343): `payer`, `amount`, the optional `involved` list
(`exp.get('involved', members)` distinguishes an absent key from a recorded
empty list, hence the `Option`), and the `settled` flag
(`exp.get('settled', False)`).  The `id`, `title`, `date`, `category` fields
are never read by the core and are omitted. -/
structure Expense where
  payer : String
  amount : ℚ
  involved : Option (List String)
  settled : Bool
deriving DecidableEq, Repr

/-- A pairwise transaction `{"debtor": ..., "creditor": ..., "amount": ...}`
as built at src/app.py line 371; the spec calls these Debts. -/
structure Debt where
  debtor : String
  creditor : String
  amount : ℚ
deriving DecidableEq, Repr

/-- A settlement record, restricted to the fields read by the reconcile loop
(src/app.py lines 1421-1426): `from_user`, `to_user`, `amount`. -/
structure Settlement where
  from_user : String
  to_user : String
  amount : ℚ
deriving DecidableEq, Repr

/-- First-occurrence deduplication: the key sequence of the Python dict
`{m: 0.0 for m in members}` (src/app.py line 332). -/
def dedupFirst : List String → List String
  | [] => []
  | m :: rest => m :: dedupFirst (rest.filter (fun x => x ≠ m))
termination_by l => l.length
decreasing_by
  simpa using Nat.lt_succ_of_le (List.length_filter_le _ _)

/-- `balances[key] += delta` on the association list: every entry whose key
matches is shifted by `delta`; an absent key leaves the list unchanged, which
is exactly the effect of the `if ... in balances` guards at src/app.py
lines 346 and 350. -/
def updateBal (bal : List (String × ℚ)) (key : String) (delta : ℚ) :
    List (String × ℚ) :=
  bal.map (fun kv => if kv.1 = key then (kv.1, kv.2 + delta) else kv)

/-- The body of the per-expense loop of src/app.py lines 333-351: skip settled
expenses, default an absent `involved` to the member list, skip when the
participant list is empty, credit the payer with the amount, and debit each
participant one equal share of it. -/
def applyExpense (members : List String) (bal : List (String × ℚ))
    (e : Expense) : List (String × ℚ) :=
  if e.settled = true then bal
  else
    let involved := e.involved.getD members
    if involved.isEmpty then bal
    else
      let split_amount := e.amount / (involved.length : ℚ)
      involved.foldl (fun b person => updateBal b person (-split_amount))
        (updateBal bal e.payer e.amount)

/-- The initial dict `{m: 0.0 for m in members}` (src/app.py line 332). -/
def initBalances (members : List String) : List (String × ℚ) :=
  (dedupFirst members).map (fun m => (m, 0))

/-- The balance-calculation phase of `calculate_debts`
(src/app.py lines 331-351). -/
def compute_balances (expenses : List Expense) (members : List String) :
    List (String × ℚ) :=
  expenses.foldl (applyExpense members) (initBalances members)

/-- Stable ascending insertion by the rational value: an element moves past
exactly the strictly larger values, so equal values keep their original order,
as Python's stable `debtors.sort(key=lambda x: x[1])` does. -/
def insertAsc (x : String × ℚ) : List (String × ℚ) → List (String × ℚ)
  | [] => [x]
  | y :: ys => if x.2 < y.2 then x :: y :: ys else y :: insertAsc x ys

/-- Stable sort ascending by value (src/app.py line 360). -/
def sortAsc (l : List (String × ℚ)) : List (String × ℚ) :=
  l.foldl (fun acc x => insertAsc x acc) []

/-- Stable descending insertion by the rational value, matching the stable
`creditors.sort(key=lambda x: x[1], reverse=True)`. -/
def insertDesc (x : String × ℚ) : List (String × ℚ) → List (String × ℚ)
  | [] => [x]
  | y :: ys => if y.2 < x.2 then x :: y :: ys else y :: insertDesc x ys

/-- Stable sort descending by value (src/app.py line 361). -/
def sortDesc (l : List (String × ℚ)) : List (String × ℚ) :=
  l.foldl (fun acc x => insertDesc x acc) []

/-- Members with balance below −0.01, in dict order, sorted ascending
(most negative first): src/app.py lines 354-360. -/
def debtorsOf (balances : List (String × ℚ)) : List (String × ℚ) :=
  sortAsc (balances.filter (fun kv => kv.2 < -0.01))

/-- Members with balance above 0.01, in dict order, sorted descending
(most positive first): src/app.py lines 355-361. -/
def creditorsOf (balances : List (String × ℚ)) : List (String × ℚ) :=
  sortDesc (balances.filter (fun kv => 0.01 < kv.2))

/-- The two-pointer sweep of src/app.py lines 363-379.  The loop runs while
both index `i` is inside `debtors` and `j` is inside `creditors`; since the
indices only move forward, the pending suffixes are carried as lists.  Each
iteration transfers `min(abs(debt), credit)`, emits the transaction, and
advances past a side whose updated residual lies inside the ±0.01 band (the
debtor test uses `abs`, the creditor test does not, exactly as in the source).
The `fuel` argument bounds the number of iterations; `none` means the given
fuel ran out before either list was exhausted. -/
def loopAux : Nat → List (String × ℚ) → List (String × ℚ) →
    Option (List Debt)
  | _, [], _ => some []
  | _, _ :: _, [] => some []
  | 0, _ :: _, _ :: _ => none
  | fuel + 1, (d, bd) :: ds, (c, bc) :: cs =>
    let amount := min |bd| bc
    let bd' := bd + amount
    let bc' := bc - amount
    let ds' := if |bd'| < 0.01 then ds else (d, bd') :: ds
    let cs' := if bc' < 0.01 then cs else (c, bc') :: cs
    (loopAux fuel ds' cs').map (fun ts => ⟨d, c, amount⟩ :: ts)

/-- The debt-simplification phase of `calculate_debts`
(src/app.py lines 353-379), run with fuel `|debtors| + |creditors|`, which
`loopAux_isSome` proves sufficient because every debtor balance is negative. -/
def simplifyDebts (balances : List (String × ℚ)) : List Debt :=
  let debtors := debtorsOf balances
  let creditors := creditorsOf balances
  (loopAux (debtors.length + creditors.length) debtors creditors).getD []

/-- `calculate_debts` (src/app.py lines 330-379): balances, then the greedy
sweep. -/
def calculate_debts (expenses : List Expense) (members : List String) :
    List Debt :=
  simplifyDebts (compute_balances expenses members)

/-- Balance of `m` in an association list: the value of the first entry with
key `m`, or 0 when absent (a dict has at most one entry per key). -/
def lookupBal : List (String × ℚ) → String → ℚ
  | [], _ => 0
  | kv :: rest, m => if kv.1 = m then kv.2 else lookupBal rest m

/-- Sum of all balances in the dict, `sum(balances.values())`. -/
def sumVals (l : List (String × ℚ)) : ℚ :=
  (l.map Prod.snd).sum

/-- Net position of member `m` starting from balance `b` after carrying out a
list of transactions: each transaction moves its amount from the debtor to the
creditor, so the debtor's balance rises and the creditor's falls by it. -/
def netAfter (ts : List Debt) (b : ℚ) (m : String) : ℚ :=
  ts.foldl
    (fun acc t =>
      acc + (if t.debtor = m then t.amount else 0) -
        (if t.creditor = m then t.amount else 0)) b

/-- One settlement applied to the debt list: the inner `for debt in debts`
loop of src/app.py lines 1423-1429.  The first debt matching
`(debtor == from_user, creditor == to_user)` — exact direction — has the
settlement amount subtracted; if the result is ≤ 0 the debt is removed
(`debts.remove(debt)`); the loop then breaks, so later debts are untouched,
and a settlement matching nothing changes nothing. -/
def applySettlement (debts : List Debt) (s : Settlement) : List Debt :=
  match debts with
  | [] => []
  | d :: rest =>
    if d.debtor = s.from_user ∧ d.creditor = s.to_user then
      if d.amount - s.amount ≤ 0 then rest
      else { d with amount := d.amount - s.amount } :: rest
    else d :: applySettlement rest s

/-- The settlement-reconciliation pass of src/app.py lines 1421-1432: apply
each recorded settlement in order, then drop every debt with amount ≤ 0.01. -/
def reconcile (debts : List Debt) (settlements : List Settlement) :
    List Debt :=
  (settlements.foldl applySettlement debts).filter (fun d => 0.01 < d.amount)

/-! ### Settlement reconciliation: lemmas and claims C5, C6, C10 -/

lemma applySettlement_of_no_match (debts : List Debt) (s : Settlement)
    (h : ∀ d ∈ debts, ¬(d.debtor = s.from_user ∧ d.creditor = s.to_user)) :
    applySettlement debts s = debts := by
  induction debts with
  | nil => rfl
  | cons d rest ih =>
    rw [applySettlement, if_neg (h d (List.mem_cons_self d rest))]
    exact congrArg (d :: ·) (ih fun d' hd' => h d' (List.mem_cons_of_mem d hd'))

lemma applySettlement_mono (s : Settlement) (hs : 0 ≤ s.amount) :
    ∀ debts, ∀ d' ∈ applySettlement debts s,
      ∃ d ∈ debts, d.debtor = d'.debtor ∧ d.creditor = d'.creditor ∧
        d'.amount ≤ d.amount := by
  intro debts
  induction debts with
  | nil => intro d' hd'; simp [applySettlement] at hd'
  | cons d rest ih =>
    intro d' hd'
    by_cases hm : d.debtor = s.from_user ∧ d.creditor = s.to_user
    · rw [applySettlement, if_pos hm] at hd'
      by_cases hz : d.amount - s.amount ≤ 0
      · rw [if_pos hz] at hd'
        exact ⟨d', List.mem_cons_of_mem d hd', rfl, rfl, le_refl _⟩
      · rw [if_neg hz] at hd'
        rcases List.mem_cons.mp hd' with h | h
        · exact ⟨d, List.mem_cons_self d rest, by rw [h], by rw [h],
            by rw [h]; simp; linarith⟩
        · exact ⟨d', List.mem_cons_of_mem d h, rfl, rfl, le_refl _⟩
    · rw [applySettlement, if_neg hm] at hd'
      rcases List.mem_cons.mp hd' with h | h
      · exact ⟨d, List.mem_cons_self d rest, by rw [h], by rw [h],
          by simp [h]⟩
      · obtain ⟨d0, hd0, h1, h2, h3⟩ := ih d' h
        exact ⟨d0, List.mem_cons_of_mem d hd0, h1, h2, h3⟩

lemma foldl_applySettlement_mono (settlements : List Settlement)
    (hs : ∀ s ∈ settlements, 0 ≤ s.amount) :
    ∀ debts, ∀ d' ∈ settlements.foldl applySettlement debts,
      ∃ d ∈ debts, d.debtor = d'.debtor ∧ d.creditor = d'.creditor ∧
        d'.amount ≤ d.amount := by
  induction settlements with
  | nil => intro debts d' hd'; exact ⟨d', hd', rfl, rfl, le_refl _⟩
  | cons s rest ih =>
    intro debts d' hd'
    rw [List.foldl_cons] at hd'
    obtain ⟨d1, hd1, e1, e2, e3⟩ :=
      ih (fun t ht => hs t (List.mem_cons_of_mem s ht)) _ d' hd'
    obtain ⟨d0, hd0, f1, f2, f3⟩ :=
      applySettlement_mono s (hs s (List.mem_cons_self s rest)) debts d1 hd1
    exact ⟨d0, hd0, f1.trans e1, f2.trans e2, e3.trans f3⟩

/-- C5 (amended): provided every settlement amount is non-negative,
reconciliation is monotone: every debt in the output corresponds to an input
debt with the same debtor/creditor pair and an amount at least as large, so
`reconcile` never increases a debt and never invents a debtor/creditor pair.
(The non-negativity hypothesis is necessary: see the counterexample.) -/
theorem reconcile_monotone (debts : List Debt) (settlements : List Settlement)
    (hs : ∀ s ∈ settlements, 0 ≤ s.amount) :
    ∀ d' ∈ reconcile debts settlements,
      ∃ d ∈ debts, d.debtor = d'.debtor ∧ d.creditor = d'.creditor ∧
        d'.amount ≤ d.amount := by
  intro d' hd'
  exact foldl_applySettlement_mono settlements hs debts d'
    (List.mem_of_mem_filter hd')

/-- C5 witness: the monotonicity theorem applied to a concrete ledger. -/
theorem reconcile_monotone_witness :
    ∃ d ∈ [Debt.mk "A" "B" 5], d.debtor = "A" ∧ d.creditor = "B" ∧
      (3 : ℚ) ≤ d.amount := by
  have h := reconcile_monotone [Debt.mk "A" "B" 5] [Settlement.mk "A" "B" 2]
    (by intro s hs; rcases List.mem_singleton.mp hs with rfl; norm_num)
    (Debt.mk "A" "B" 3)
  have hmem : Debt.mk "A" "B" 3 ∈
      reconcile [Debt.mk "A" "B" 5] [Settlement.mk "A" "B" 2] := by
    norm_num [reconcile, applySettlement]
  obtain ⟨d, hd, e1, e2, e3⟩ := h hmem
  exact ⟨d, hd, e1, e2, e3⟩

/-- C5 counterexample: with a negative settlement amount (which the source
never validates against) the reconcile loop increases the matched debt, so the
claim as stated — over every input settlement list — is false. -/
theorem reconcile_monotone_counterexample :
    ¬ (∀ d' ∈ reconcile [Debt.mk "A" "B" 5] [Settlement.mk "A" "B" (-3)],
        ∀ d ∈ [Debt.mk "A" "B" 5], d.debtor = d'.debtor →
          d.creditor = d'.creditor → d'.amount ≤ d.amount) := by
  intro h
  have hr : reconcile [Debt.mk "A" "B" 5] [Settlement.mk "A" "B" (-3)] =
      [Debt.mk "A" "B" 8] := by
    norm_num [reconcile, applySettlement]
  have := h (Debt.mk "A" "B" 8) (by rw [hr]; exact List.mem_singleton.mpr rfl)
    (Debt.mk "A" "B" 5) (List.mem_singleton.mpr rfl) rfl rfl
  norm_num at this

/-- C6: a settlement whose (from_user, to_user) pair matches no debt in the
same direction leaves the debt list unchanged; the reconcile loop simply finds
no debt to reduce, and no error is raised (the embedding is a total
function). -/
theorem unmatched_settlement_noop (debts : List Debt) (s : Settlement)
    (h : ∀ d ∈ debts, ¬(d.debtor = s.from_user ∧ d.creditor = s.to_user)) :
    applySettlement debts s = debts :=
  applySettlement_of_no_match debts s h

/-- C6 witness: a settlement in the reversed direction of the only debt is a
no-op. -/
theorem unmatched_settlement_noop_witness :
    applySettlement [Debt.mk "B" "A" 30] (Settlement.mk "A" "B" 30) =
      [Debt.mk "B" "A" 30] :=
  unmatched_settlement_noop _ _ (by decide)

/-- C10: when a settlement's amount strictly exceeds the amount of the first
debt matching its direction, that debt is removed outright and the rest of the
list is returned unchanged: the excess is not applied to any other debt and no
record of it survives for later settlements of the fold. -/
theorem overpayment_discards_excess (pre post : List Debt) (dm : Debt)
    (s : Settlement)
    (hpre : ∀ d ∈ pre, ¬(d.debtor = s.from_user ∧ d.creditor = s.to_user))
    (hm : dm.debtor = s.from_user ∧ dm.creditor = s.to_user)
    (hex : dm.amount < s.amount) :
    applySettlement (pre ++ dm :: post) s = pre ++ post := by
  induction pre with
  | nil =>
    rw [List.nil_append, List.nil_append, applySettlement, if_pos hm,
      if_pos (by linarith)]
  | cons d rest ih =>
    rw [List.cons_append, applySettlement,
      if_neg (hpre d (List.mem_cons_self d rest)),
      ih fun d' hd' => hpre d' (List.mem_cons_of_mem d hd'),
      List.cons_append]

/-- C10 witness: a 10-unit settlement against a 7-unit debt removes the debt
and leaves the remaining debts untouched. -/
theorem overpayment_discards_excess_witness :
    applySettlement
      [Debt.mk "C" "D" 4, Debt.mk "A" "B" 7, Debt.mk "A" "C" 9]
      (Settlement.mk "A" "B" 10) =
      [Debt.mk "C" "D" 4, Debt.mk "A" "C" 9] :=
  overpayment_discards_excess [Debt.mk "C" "D" 4] [Debt.mk "A" "C" 9]
    (Debt.mk "A" "B" 7) (Settlement.mk "A" "B" 10) (by decide) (by decide)
    (by norm_num)

/-! ### Balance calculator: key, lookup and sum lemmas -/

lemma dedupFirst_mem (a : String) : ∀ l : List String,
    a ∈ dedupFirst l ↔ a ∈ l := by
  intro l
  induction l using dedupFirst.induct with
  | case1 => simp [dedupFirst]
  | case2 m rest ih =>
    rw [dedupFirst]
    simp only [List.mem_cons, ih, List.mem_filter, decide_eq_true_eq]
    by_cases h : a = m
    · simp [h]
    · simp [h]

lemma dedupFirst_nodup : ∀ l : List String, (dedupFirst l).Nodup := by
  intro l
  induction l using dedupFirst.induct with
  | case1 => simp [dedupFirst]
  | case2 m rest ih =>
    rw [dedupFirst]
    refine List.nodup_cons.mpr ⟨?_, ih⟩
    rw [dedupFirst_mem]
    simp

lemma dedupFirst_eq_self : ∀ l : List String, l.Nodup → dedupFirst l = l := by
  intro l
  induction l using dedupFirst.induct with
  | case1 => intro _; simp [dedupFirst]
  | case2 m rest ih =>
    intro h
    have hm : m ∉ rest := (List.nodup_cons.mp h).1
    have hrest : rest.Nodup := (List.nodup_cons.mp h).2
    have hf : rest.filter (fun x => x ≠ m) = rest := by
      apply List.filter_eq_self.mpr
      intro x hx
      simp only [ne_eq, decide_eq_true_eq]
      intro hxm
      exact hm (hxm ▸ hx)
    rw [hf] at ih
    rw [dedupFirst, hf, ih hrest]

lemma updateBal_cons (kv : String × ℚ) (rest : List (String × ℚ))
    (k : String) (δ : ℚ) :
    updateBal (kv :: rest) k δ =
      (if kv.1 = k then (kv.1, kv.2 + δ) else kv) :: updateBal rest k δ := rfl

lemma keys_updateBal (bal : List (String × ℚ)) (k : String) (δ : ℚ) :
    (updateBal bal k δ).map Prod.fst = bal.map Prod.fst := by
  induction bal with
  | nil => rfl
  | cons kv rest ih =>
    rw [updateBal_cons, List.map_cons, List.map_cons, ih]
    congr 1
    split <;> rfl

lemma lookupBal_updateBal (bal : List (String × ℚ)) (k : String) (δ : ℚ)
    (m : String) :
    lookupBal (updateBal bal k δ) m =
      lookupBal bal m + if m = k ∧ k ∈ bal.map Prod.fst then δ else 0 := by
  induction bal with
  | nil => simp [lookupBal, updateBal]
  | cons kv rest ih =>
    rw [updateBal_cons]
    by_cases h1 : kv.1 = k
    · rw [if_pos h1]
      by_cases h2 : kv.1 = m
      · have hmk : m = k := h2.symm.trans h1
        simp [lookupBal, h2, hmk, h1]
      · have hmk : ¬ m = k := fun hh => h2 (h1.trans hh.symm)
        simp [lookupBal, h2, ih, hmk]
    · rw [if_neg h1]
      by_cases h2 : kv.1 = m
      · have hmk : ¬ m = k := fun hh => h1 (h2.trans hh)
        simp [lookupBal, h2, hmk]
      · have hk : ¬ k = kv.1 := fun hh => h1 hh.symm
        by_cases hmk : m = k
        · subst hmk
          simp only [lookupBal, h2, if_neg h2, ih]
          by_cases hm2 : m ∈ List.map Prod.fst rest
          · simp [hm2]
          · simp [hm2, hk]
        · simp [lookupBal, h2, ih, hmk]

lemma keys_foldl_updateBal (δ : ℚ) : ∀ (inv : List String)
    (bal : List (String × ℚ)),
    ((inv.foldl (fun b p => updateBal b p δ) bal)).map Prod.fst =
      bal.map Prod.fst := by
  intro inv
  induction inv with
  | nil => intro bal; rfl
  | cons p rest ih =>
    intro bal
    rw [List.foldl_cons, ih, keys_updateBal]

lemma lookupBal_foldl_updateBal (δ : ℚ) : ∀ (inv : List String)
    (bal : List (String × ℚ)) (m : String),
    lookupBal (inv.foldl (fun b p => updateBal b p δ) bal) m =
      lookupBal bal m +
        if m ∈ bal.map Prod.fst then (inv.count m : ℚ) * δ else 0 := by
  intro inv
  induction inv with
  | nil => intro bal m; simp
  | cons p rest ih =>
    intro bal m
    rw [List.foldl_cons, ih, keys_updateBal, lookupBal_updateBal]
    by_cases hm : m ∈ bal.map Prod.fst
    · rw [if_pos hm, if_pos hm]
      by_cases hp : m = p
      · subst hp
        rw [if_pos ⟨rfl, hm⟩, List.count_cons_self]
        push_cast
        ring
      · rw [if_neg (fun hh => hp hh.1), List.count_cons_of_ne hp]
        ring
    · rw [if_neg hm, if_neg hm, if_neg (by rintro ⟨rfl, hp⟩; exact hm hp)]
      ring

lemma keys_applyExpense (ms : List String) (bal : List (String × ℚ))
    (e : Expense) :
    (applyExpense ms bal e).map Prod.fst = bal.map Prod.fst := by
  simp only [applyExpense]
  by_cases h1 : e.settled = true
  · rw [if_pos h1]
  · rw [if_neg h1]
    by_cases h2 : (e.involved.getD ms).isEmpty = true
    · rw [if_pos h2]
    · rw [if_neg h2, keys_foldl_updateBal, keys_updateBal]

lemma keys_compute_balances (es : List Expense) (ms : List String) :
    (compute_balances es ms).map Prod.fst = dedupFirst ms := by
  suffices h : ∀ bal, (es.foldl (applyExpense ms) bal).map Prod.fst =
      bal.map Prod.fst by
    rw [compute_balances, h, initBalances, List.map_map]
    simp [Function.comp_def]
  intro bal
  induction es generalizing bal with
  | nil => rfl
  | cons e rest ih =>
    rw [List.foldl_cons, ih, keys_applyExpense]

lemma lookupBal_applyExpense (ms : List String) (bal : List (String × ℚ))
    (e : Expense) (inv : List String) (hset : e.settled = false)
    (hinv : e.involved.getD ms = inv) (hne : inv ≠ []) (m : String) :
    lookupBal (applyExpense ms bal e) m =
      lookupBal bal m +
        ((if m = e.payer ∧ e.payer ∈ bal.map Prod.fst then e.amount else 0) +
          (if m ∈ bal.map Prod.fst then
            (inv.count m : ℚ) * (-(e.amount / (inv.length : ℚ))) else 0)) := by
  simp only [applyExpense, hinv]
  rw [if_neg (by simp [hset]), if_neg (by simp [List.isEmpty_iff, hne]),
    lookupBal_foldl_updateBal, keys_updateBal, lookupBal_updateBal, add_assoc]

lemma lookupBal_initBalances (ms : List String) (m : String) :
    lookupBal (initBalances ms) m = 0 := by
  rw [initBalances]
  induction dedupFirst ms with
  | nil => rfl
  | cons a l ih =>
    rw [List.map_cons, lookupBal]
    split
    · rfl
    · exact ih

/-- C7: a settled expense contributes nothing: inserting an expense with
`settled = true` anywhere in the list changes neither any member's balance nor
the emitted debt list, whatever its amount, payer, or participants. -/
theorem settled_excluded (pre post : List Expense) (e : Expense)
    (ms : List String) (h : e.settled = true) :
    compute_balances (pre ++ e :: post) ms =
        compute_balances (pre ++ post) ms ∧
      calculate_debts (pre ++ e :: post) ms =
        calculate_debts (pre ++ post) ms := by
  have hbal : compute_balances (pre ++ e :: post) ms =
      compute_balances (pre ++ post) ms := by
    rw [compute_balances, compute_balances, List.foldl_append,
      List.foldl_append, List.foldl_cons]
    congr 1
    rw [applyExpense, if_pos h]
  exact ⟨hbal, by rw [calculate_debts, calculate_debts, hbal]⟩

/-- C7 witness: a settled 1000-unit expense leaves Scenario-A balances and
debts untouched. -/
theorem settled_excluded_witness :
    compute_balances
        [Expense.mk "A" 10 (some ["A", "B"]) false,
          Expense.mk "B" 1000 (some ["A", "B"]) true] ["A", "B"] =
      compute_balances [Expense.mk "A" 10 (some ["A", "B"]) false] ["A", "B"] ∧
    calculate_debts
        [Expense.mk "A" 10 (some ["A", "B"]) false,
          Expense.mk "B" 1000 (some ["A", "B"]) true] ["A", "B"] =
      calculate_debts [Expense.mk "A" 10 (some ["A", "B"]) false] ["A", "B"] :=
  settled_excluded [Expense.mk "A" 10 (some ["A", "B"]) false] []
    (Expense.mk "B" 1000 (some ["A", "B"]) true) ["A", "B"] rfl

/-- C3 counterexample: an unsettled expense recorded with an *empty*
`involved` list is skipped by the source (`exp.get('involved', members)`
returns the recorded empty list, and `if not involved: continue` fires), so
with members {A, B} the payer's balance stays 0 rather than the
10 − 10/2 = 5 that splitting over the full member set would give. -/
theorem empty_involved_counterexample :
    lookupBal
        (compute_balances [Expense.mk "A" 10 (some []) false] ["A", "B"])
        "A" = 0 ∧
      lookupBal
        (compute_balances [Expense.mk "A" 10 (some []) false] ["A", "B"])
        "A" ≠ (5 : ℚ) := by
  have h : lookupBal
      (compute_balances [Expense.mk "A" 10 (some []) false] ["A", "B"])
      "A" = 0 := by
    simp +decide [compute_balances, applyExpense, initBalances, dedupFirst,
      updateBal, lookupBal]
  exact ⟨h, by rw [h]; norm_num⟩

/-- C3 (amended): the `involved` key defaults to the full member set only
when it is *absent* (`exp.get('involved', members)`); an expense whose
recorded participant list is empty is skipped outright, as is one whose
defaulted participant list is empty because there are no members.  With the
key absent, the payer is credited the amount and every member is debited an
equal share `amount / |members|`. -/
theorem involved_defaulting (e : Expense) (ms : List String) :
    (e.involved = some [] → ∀ bal, applyExpense ms bal e = bal) ∧
      (e.involved = none → e.settled = false → ms.Nodup → ms ≠ [] →
        ∀ m, lookupBal (compute_balances [e] ms) m =
          if m ∈ ms then
            (if m = e.payer then e.amount else 0) - e.amount / (ms.length : ℚ)
          else 0) := by
  constructor
  · intro hemp bal
    simp only [applyExpense, hemp]
    by_cases h1 : e.settled = true
    · rw [if_pos h1]
    · rw [if_neg h1]
      simp
  · intro habs hset hnd hne m
    have hcb : compute_balances [e] ms = applyExpense ms (initBalances ms) e :=
      by rw [compute_balances, List.foldl_cons, List.foldl_nil]
    rw [hcb, lookupBal_applyExpense ms _ e ms hset (by rw [habs]; rfl) hne m,
      lookupBal_initBalances]
    have hkeys : (initBalances ms).map Prod.fst = ms := by
      rw [initBalances, List.map_map]
      simp [Function.comp_def, dedupFirst_eq_self ms hnd]
    rw [hkeys]
    by_cases hm : m ∈ ms
    · rw [if_pos hm]
      have hcount : (ms.count m : ℚ) = 1 := by
        rw [List.count_eq_one_of_mem hnd hm]
        norm_num
      rw [if_pos hm, hcount]
      by_cases hp : m = e.payer
      · rw [if_pos ⟨hp, hp ▸ hm⟩, if_pos hp]
        ring
      · rw [if_neg (fun hh => hp hh.1), if_neg hp]
        ring
    · rw [if_neg hm, if_neg hm, if_neg (by rintro ⟨rfl, hp⟩; exact hm hp)]
      ring

/-- C3 amended witness: with the key absent the expense splits over both
members (payer balance 10 − 10/2); with a recorded empty list the update is
the identity. -/
theorem involved_defaulting_witness :
    applyExpense ["A", "B"] [("A", (0 : ℚ))]
        (Expense.mk "A" 10 (some []) false) = [("A", (0 : ℚ))] ∧
      lookupBal
        (compute_balances [Expense.mk "A" 10 none false] ["A", "B"]) "A" =
        (if ("A" : String) ∈ ["A", "B"] then
          (if ("A" : String) = "A" then (10 : ℚ) else 0) -
            10 / ((["A", "B"] : List String).length : ℚ)
        else 0) :=
  ⟨(involved_defaulting (Expense.mk "A" 10 (some []) false) ["A", "B"]).1
      rfl _,
    (involved_defaulting (Expense.mk "A" 10 none false) ["A", "B"]).2 rfl rfl
      (by decide) (by decide) "A"⟩

/-- C8: an expense naming unknown people raises nothing and leaves every
unknown name without balance effect: the lookup of any name not in the member
set is unchanged (the dict holds only member keys), an unknown payer is
credited nowhere, and each *known* participant is still debited
`amount / len(involved)`, computed over the full recorded participant list,
unknown entries included. -/
theorem unknown_members_excluded (es : List Expense) (ms : List String)
    (e : Expense) (inv : List String) (hset : e.settled = false)
    (hinv : e.involved = some inv) (hne : inv ≠ []) (hnd : inv.Nodup)
    (hmnd : ms.Nodup) :
    ∀ m, lookupBal (compute_balances (es ++ [e]) ms) m =
      lookupBal (compute_balances es ms) m +
        (if m ∈ ms then
          (if m = e.payer then e.amount else 0) -
            (if m ∈ inv then e.amount / (inv.length : ℚ) else 0)
        else 0) := by
  intro m
  have hcb : compute_balances (es ++ [e]) ms =
      applyExpense ms (compute_balances es ms) e := by
    rw [compute_balances, compute_balances, List.foldl_append,
      List.foldl_cons, List.foldl_nil]
  rw [hcb, lookupBal_applyExpense ms _ e inv hset (by rw [hinv]; rfl) hne m]
  have hkeys : (compute_balances es ms).map Prod.fst = ms := by
    rw [keys_compute_balances, dedupFirst_eq_self ms hmnd]
  rw [hkeys]
  congr 1
  by_cases hm : m ∈ ms
  · rw [if_pos hm, if_pos hm]
    by_cases hp : m = e.payer
    · rw [if_pos ⟨hp, hp ▸ hm⟩, if_pos hp]
      by_cases hi : m ∈ inv
      · rw [if_pos hi, List.count_eq_one_of_mem hnd hi]
        push_cast
        ring
      · rw [if_neg hi, List.count_eq_zero_of_not_mem hi]
        push_cast
        ring
    · rw [if_neg (fun hh => hp hh.1), if_neg hp]
      by_cases hi : m ∈ inv
      · rw [if_pos hi, List.count_eq_one_of_mem hnd hi]
        push_cast
        ring
      · rw [if_neg hi, List.count_eq_zero_of_not_mem hi]
        push_cast
        ring
  · rw [if_neg hm, if_neg hm, if_neg (by rintro ⟨rfl, hp⟩; exact hm hp)]
    ring

/-- C8 witness: an expense paid by unknown "B" splitting over ["A","B"] with
members {A} debits A half and leaves B's (absent) balance untouched. -/
theorem unknown_members_excluded_witness :
    lookupBal
        (compute_balances ([] ++ [Expense.mk "B" 10 (some ["A", "B"]) false])
          ["A"]) "A" =
      lookupBal (compute_balances [] ["A"]) "A" +
        (if ("A" : String) ∈ ["A"] then
          (if ("A" : String) = "B" then (10 : ℚ) else 0) -
            (if ("A" : String) ∈ ["A", "B"] then
              10 / ((["A", "B"] : List String).length : ℚ) else 0)
        else 0) :=
  unknown_members_excluded [] ["A"] (Expense.mk "B" 10 (some ["A", "B"]) false)
    ["A", "B"] rfl rfl (by decide) (by decide) (by decide) "A"

lemma sumVals_cons (kv : String × ℚ) (l : List (String × ℚ)) :
    sumVals (kv :: l) = kv.2 + sumVals l := by
  simp [sumVals]

lemma keys_initBalances (ms : List String) :
    (initBalances ms).map Prod.fst = dedupFirst ms := by
  rw [initBalances, List.map_map]
  simp [Function.comp_def]

lemma sumVals_initBalances (ms : List String) :
    sumVals (initBalances ms) = 0 := by
  rw [initBalances]
  induction dedupFirst ms with
  | nil => rfl
  | cons a l ih => rw [List.map_cons, sumVals_cons, ih, add_zero]

lemma sum_map_ones (l : List String) :
    (l.map (fun _ => (1 : ℚ))).sum = (l.length : ℚ) := by
  induction l with
  | nil => simp
  | cons a t ih =>
    rw [List.map_cons, List.sum_cons, ih, List.length_cons]
    push_cast
    ring

lemma sumVals_updateBal (bal : List (String × ℚ)) (k : String) (δ : ℚ) :
    sumVals (updateBal bal k δ) =
      sumVals bal + ((bal.map Prod.fst).count k : ℚ) * δ := by
  induction bal with
  | nil => simp [sumVals, updateBal]
  | cons kv rest ih =>
    rw [updateBal_cons]
    by_cases h : kv.1 = k
    · rw [if_pos h, sumVals_cons, sumVals_cons, ih, List.map_cons, h,
        List.count_cons_self]
      push_cast
      ring
    · rw [if_neg h, sumVals_cons, sumVals_cons, ih, List.map_cons,
        List.count_cons_of_ne (fun hh => h hh.symm)]
      ring

lemma sumVals_foldl_updateBal (δ : ℚ) : ∀ (inv : List String)
    (bal : List (String × ℚ)),
    sumVals (inv.foldl (fun b p => updateBal b p δ) bal) =
      sumVals bal +
        δ * ((inv.map (fun p => ((bal.map Prod.fst).count p : ℚ))).sum) := by
  intro inv
  induction inv with
  | nil => intro bal; simp
  | cons p rest ih =>
    intro bal
    rw [List.foldl_cons, ih]
    simp only [keys_updateBal]
    rw [sumVals_updateBal, List.map_cons, List.sum_cons]
    ring

lemma sumVals_applyExpense (ms : List String) (bal : List (String × ℚ))
    (e : Expense) (hkeys : bal.map Prod.fst = dedupFirst ms)
    (hknown : e.settled = false →
      e.payer ∈ ms ∧ ∀ p ∈ e.involved.getD ms, p ∈ ms) :
    sumVals (applyExpense ms bal e) = sumVals bal := by
  by_cases h1 : e.settled = true
  · simp [applyExpense, h1]
  · have hset : e.settled = false := by revert h1; cases e.settled <;> simp
    obtain ⟨hpayer, hinv⟩ := hknown hset
    simp only [applyExpense, hset]
    rw [if_neg (by simp)]
    by_cases h2 : (e.involved.getD ms).isEmpty = true
    · rw [if_pos h2]
    · rw [if_neg h2, sumVals_foldl_updateBal]
      simp only [keys_updateBal]
      rw [sumVals_updateBal, hkeys]
      have hlen : e.involved.getD ms ≠ [] := by
        simpa [List.isEmpty_iff] using h2
      have hmap : (e.involved.getD ms).map
          (fun p => ((dedupFirst ms).count p : ℚ)) =
          (e.involved.getD ms).map (fun _ => (1 : ℚ)) := by
        apply List.map_congr_left
        intro p hp
        rw [List.count_eq_one_of_mem (dedupFirst_nodup ms)
          ((dedupFirst_mem p ms).mpr (hinv p hp))]
        norm_num
      rw [hmap, sum_map_ones]
      have hpc : ((dedupFirst ms).count e.payer : ℚ) = 1 := by
        rw [List.count_eq_one_of_mem (dedupFirst_nodup ms)
          ((dedupFirst_mem e.payer ms).mpr hpayer)]
        norm_num
      rw [hpc]
      have hL : ((e.involved.getD ms).length : ℚ) ≠ 0 :=
        Nat.cast_ne_zero.mpr (by simpa [List.length_eq_zero] using hlen)
      field_simp
      ring

lemma sumVals_compute_balances (es : List Expense) (ms : List String)
    (hknown : ∀ e ∈ es, e.settled = false →
      e.payer ∈ ms ∧ ∀ p ∈ e.involved.getD ms, p ∈ ms) :
    sumVals (compute_balances es ms) = 0 := by
  have h : ∀ (l : List Expense) (bal : List (String × ℚ)),
      (∀ e ∈ l, e.settled = false →
        e.payer ∈ ms ∧ ∀ p ∈ e.involved.getD ms, p ∈ ms) →
      bal.map Prod.fst = dedupFirst ms →
      sumVals (l.foldl (applyExpense ms) bal) = sumVals bal := by
    intro l
    induction l with
    | nil => intro bal _ _; rfl
    | cons e rest ih =>
      intro bal hkn hk
      rw [List.foldl_cons,
        ih _ (fun e' he' => hkn e' (List.mem_cons_of_mem e he'))
          (by rw [keys_applyExpense, hk]),
        sumVals_applyExpense ms bal e hk (hkn e (List.mem_cons_self e rest))]
  rw [compute_balances, h es (initBalances ms) hknown (keys_initBalances ms),
    sumVals_initBalances]

/-- C2: when every payer and every involved participant of every unsettled
expense is a member, the balances sum to exactly zero (the embedding computes
in exact rational arithmetic, so "within 1e-6" holds a fortiori). -/
theorem balances_zero_sum (es : List Expense) (ms : List String)
    (hknown : ∀ e ∈ es, e.settled = false →
      e.payer ∈ ms ∧ ∀ p ∈ e.involved.getD ms, p ∈ ms) :
    sumVals (compute_balances es ms) = 0 :=
  sumVals_compute_balances es ms hknown

/-- C2 witness: Scenario A's balances sum to zero. -/
theorem balances_zero_sum_witness :
    sumVals
      (compute_balances [Expense.mk "A" 90 (some ["A", "B", "C"]) false]
        ["A", "B", "C"]) = 0 :=
  balances_zero_sum [Expense.mk "A" 90 (some ["A", "B", "C"]) false]
    ["A", "B", "C"] (by decide)

/-! ### Debt simplifier: sorting and sweep-loop lemmas -/

lemma insertAsc_perm (x : String × ℚ) :
    ∀ l, List.Perm (insertAsc x l) (x :: l) := by
  intro l
  induction l with
  | nil => exact List.Perm.refl _
  | cons y ys ih =>
    rw [insertAsc]
    split
    · exact List.Perm.refl _
    · exact (List.Perm.cons y ih).trans (List.Perm.swap x y ys)

lemma insertDesc_perm (x : String × ℚ) :
    ∀ l, List.Perm (insertDesc x l) (x :: l) := by
  intro l
  induction l with
  | nil => exact List.Perm.refl _
  | cons y ys ih =>
    rw [insertDesc]
    split
    · exact List.Perm.refl _
    · exact (List.Perm.cons y ih).trans (List.Perm.swap x y ys)

lemma foldl_insertAsc_perm : ∀ (l acc : List (String × ℚ)),
    List.Perm (l.foldl (fun a x => insertAsc x a) acc) (acc ++ l) := by
  intro l
  induction l with
  | nil =>
    intro acc
    rw [List.foldl_nil, List.append_nil]
  | cons x xs ih =>
    intro acc
    rw [List.foldl_cons]
    have p1 : List.Perm (xs.foldl (fun a y => insertAsc y a) (insertAsc x acc))
        (insertAsc x acc ++ xs) := ih _
    have p2 : List.Perm (insertAsc x acc ++ xs) ((x :: acc) ++ xs) :=
      (insertAsc_perm x acc).append_right xs
    have p3 : List.Perm ((x :: acc) ++ xs) (acc ++ x :: xs) := by
      rw [List.cons_append]
      exact List.perm_middle.symm
    exact (p1.trans p2).trans p3

lemma foldl_insertDesc_perm : ∀ (l acc : List (String × ℚ)),
    List.Perm (l.foldl (fun a x => insertDesc x a) acc) (acc ++ l) := by
  intro l
  induction l with
  | nil =>
    intro acc
    rw [List.foldl_nil, List.append_nil]
  | cons x xs ih =>
    intro acc
    rw [List.foldl_cons]
    have p1 : List.Perm (xs.foldl (fun a y => insertDesc y a) (insertDesc x acc))
        (insertDesc x acc ++ xs) := ih _
    have p2 : List.Perm (insertDesc x acc ++ xs) ((x :: acc) ++ xs) :=
      (insertDesc_perm x acc).append_right xs
    have p3 : List.Perm ((x :: acc) ++ xs) (acc ++ x :: xs) := by
      rw [List.cons_append]
      exact List.perm_middle.symm
    exact (p1.trans p2).trans p3

lemma sortAsc_perm (l : List (String × ℚ)) : List.Perm (sortAsc l) l := by
  simpa using foldl_insertAsc_perm l []

lemma sortDesc_perm (l : List (String × ℚ)) : List.Perm (sortDesc l) l := by
  simpa using foldl_insertDesc_perm l []

lemma mem_debtorsOf {b : List (String × ℚ)} {kv : String × ℚ} :
    kv ∈ debtorsOf b ↔ kv ∈ b ∧ kv.2 < -0.01 := by
  rw [debtorsOf, (sortAsc_perm _).mem_iff, List.mem_filter]
  simp

lemma mem_creditorsOf {b : List (String × ℚ)} {kv : String × ℚ} :
    kv ∈ creditorsOf b ↔ kv ∈ b ∧ 0.01 < kv.2 := by
  rw [creditorsOf, (sortDesc_perm _).mem_iff, List.mem_filter]
  simp

lemma loopAux_nil_left (fuel : Nat) (cs : List (String × ℚ)) :
    loopAux fuel [] cs = some [] := by
  cases fuel <;> cases cs <;> rfl

lemma loopAux_nil_right (fuel : Nat) (d : String × ℚ)
    (ds : List (String × ℚ)) : loopAux fuel (d :: ds) [] = some [] := by
  cases fuel <;> rfl

lemma loopAux_zero_cons (d c : String × ℚ) (ds cs : List (String × ℚ)) :
    loopAux 0 (d :: ds) (c :: cs) = none := rfl

lemma loopAux_succ (fuel : Nat) (d c : String) (bd bc : ℚ)
    (dtl ctl : List (String × ℚ)) :
    loopAux (fuel + 1) ((d, bd) :: dtl) ((c, bc) :: ctl) =
      (loopAux fuel
          (if |bd + min |bd| bc| < 0.01 then dtl
            else (d, bd + min |bd| bc) :: dtl)
          (if bc - min |bd| bc < 0.01 then ctl
            else (c, bc - min |bd| bc) :: ctl)).map
        (fun ts => ⟨d, c, min |bd| bc⟩ :: ts) := rfl

lemma sweep_invariant_step (d : String) (bd bc : ℚ)
    (dtl : List (String × ℚ)) (hbd : bd ≤ 0)
    (hd : ∀ kv ∈ dtl, kv.2 ≤ 0) :
    ∀ kv ∈ (if |bd + min |bd| bc| < 0.01 then dtl
        else (d, bd + min |bd| bc) :: dtl), kv.2 ≤ 0 := by
  intro kv hkv
  have hmem : kv ∈ (d, bd + min |bd| bc) :: dtl := by
    revert hkv
    split
    · exact fun h => List.mem_cons_of_mem _ h
    · exact id
  rcases List.mem_cons.mp hmem with h | h
  · have hmin : min |bd| bc ≤ -bd := by
      rw [← abs_of_nonpos hbd]
      exact min_le_left _ _
    rw [h]
    simp only
    linarith
  · exact hd kv h

lemma sweep_advance_step (d c : String) (bd bc : ℚ)
    (dtl ctl : List (String × ℚ)) (hbd : bd ≤ 0) :
    (if |bd + min |bd| bc| < 0.01 then dtl
        else (d, bd + min |bd| bc) :: dtl).length +
      (if bc - min |bd| bc < 0.01 then ctl
        else (c, bc - min |bd| bc) :: ctl).length + 1 ≤
      (dtl.length + 1) + (ctl.length + 1) := by
  rcases le_total |bd| bc with hmin | hmin
  · have hz : bd + min |bd| bc = 0 := by
      rw [min_eq_left hmin, abs_of_nonpos hbd]
      ring
    rw [hz, if_pos (show |(0 : ℚ)| < 0.01 by norm_num)]
    split <;> simp <;> omega
  · have hz : bc - min |bd| bc = 0 := by
      rw [min_eq_right hmin]
      ring
    rw [hz, if_pos (show (0 : ℚ) < 0.01 by norm_num)]
    split <;> simp <;> omega

lemma loopAux_isSome : ∀ (fuel : Nat) (ds cs : List (String × ℚ)),
    (∀ kv ∈ ds, kv.2 ≤ 0) → ds.length + cs.length ≤ fuel →
    (loopAux fuel ds cs).isSome = true := by
  intro fuel
  induction fuel with
  | zero =>
    intro ds cs _ hlen
    have hds : ds = [] := by
      cases ds with
      | nil => rfl
      | cons d ds' => simp at hlen
    subst hds
    rw [loopAux_nil_left]
    rfl
  | succ n ih =>
    intro ds cs hd hlen
    rcases ds with _ | ⟨⟨d, bd⟩, dtl⟩
    · rw [loopAux_nil_left]; rfl
    rcases cs with _ | ⟨⟨c, bc⟩, ctl⟩
    · rw [loopAux_nil_right]; rfl
    have hbd : bd ≤ 0 := hd _ (List.mem_cons_self _ _)
    rw [loopAux_succ]
    have hinv' := sweep_invariant_step d bd bc dtl hbd
      (fun kv hkv => hd kv (List.mem_cons_of_mem _ hkv))
    have hlen2 := sweep_advance_step d c bd bc dtl ctl hbd
    have hrec := ih
      (if |bd + min |bd| bc| < 0.01 then dtl
        else (d, bd + min |bd| bc) :: dtl)
      (if bc - min |bd| bc < 0.01 then ctl
        else (c, bc - min |bd| bc) :: ctl)
      hinv' (by
        simp only [List.length_cons] at hlen
        omega)
    rcases Option.isSome_iff_exists.mp hrec with ⟨ts, hts⟩
    rw [hts]
    rfl

lemma loopAux_length : ∀ (fuel : Nat) (ds cs : List (String × ℚ))
    (ts : List Debt), (∀ kv ∈ ds, kv.2 ≤ 0) → loopAux fuel ds cs = some ts →
    ts = [] ∨ ts.length + 1 ≤ ds.length + cs.length := by
  intro fuel
  induction fuel with
  | zero =>
    intro ds cs ts _ hts
    rcases ds with _ | ⟨⟨d, bd⟩, dtl⟩
    · rw [loopAux_nil_left] at hts
      injection hts with h
      exact Or.inl h.symm
    rcases cs with _ | ⟨⟨c, bc⟩, ctl⟩
    · rw [loopAux_nil_right] at hts
      injection hts with h
      exact Or.inl h.symm
    rw [loopAux_zero_cons] at hts
    cases hts
  | succ n ih =>
    intro ds cs ts hd hts
    rcases ds with _ | ⟨⟨d, bd⟩, dtl⟩
    · rw [loopAux_nil_left] at hts
      injection hts with h
      exact Or.inl h.symm
    rcases cs with _ | ⟨⟨c, bc⟩, ctl⟩
    · rw [loopAux_nil_right] at hts
      injection hts with h
      exact Or.inl h.symm
    have hbd : bd ≤ 0 := hd _ (List.mem_cons_self _ _)
    rw [loopAux_succ] at hts
    rcases Option.map_eq_some'.mp hts with ⟨ts', hts', rfl⟩
    have hinv' := sweep_invariant_step d bd bc dtl hbd
      (fun kv hkv => hd kv (List.mem_cons_of_mem _ hkv))
    have hstep := sweep_advance_step d c bd bc dtl ctl hbd
    rcases ih _ _ _ hinv' hts' with h | h
    · subst h
      right
      simp only [List.length_cons, List.length_nil]
      omega
    · right
      simp only [List.length_cons]
      omega

/-- C9: the two-pointer sweep terminates within `|debtors| + |creditors|`
iterations: each iteration zeroes at least one of the two current residuals
exactly (the transfer is `min(|debt|, credit)`), so at least one pointer
advances, and the loop ends once either list is exhausted.  `isSome` states
that the fuelled embedding of the `while` loop reaches list exhaustion within
that fuel. -/
theorem sweep_terminates (balances : List (String × ℚ)) :
    (loopAux ((debtorsOf balances).length + (creditorsOf balances).length)
      (debtorsOf balances) (creditorsOf balances)).isSome = true :=
  loopAux_isSome _ _ _
    (fun kv hkv => by
      have := (mem_debtorsOf.mp hkv).2
      norm_num at this ⊢
      linarith)
    (le_refl _)

/-- C4: the sweep emits at most `|debtors| + |creditors| − 1` transactions
(every iteration emits one transaction and retires at least one list entry,
and the loop stops when either list empties), and it emits none at all when
either class is empty. -/
theorem transaction_count_bound (balances : List (String × ℚ)) :
    (simplifyDebts balances).length ≤
        (debtorsOf balances).length + (creditorsOf balances).length - 1 ∧
      ((debtorsOf balances = [] ∨ creditorsOf balances = []) →
        simplifyDebts balances = []) := by
  have hinv : ∀ kv ∈ debtorsOf balances, kv.2 ≤ 0 := fun kv hkv => by
    have := (mem_debtorsOf.mp hkv).2
    norm_num at this ⊢
    linarith
  have hsome := loopAux_isSome
    ((debtorsOf balances).length + (creditorsOf balances).length)
    (debtorsOf balances) (creditorsOf balances) hinv (le_refl _)
  obtain ⟨ts, hts⟩ := Option.isSome_iff_exists.mp hsome
  have hsimp : simplifyDebts balances = ts := by
    simp only [simplifyDebts]
    rw [hts]
    rfl
  constructor
  · rcases loopAux_length _ _ _ _ hinv hts with h | h
    · rw [hsimp, h]
      simp
    · rw [hsimp]
      omega
  · rintro (h | h)
    · rw [h, loopAux_nil_left] at hts
      injection hts with h2
      rw [hsimp, ← h2]
    · rcases hdeb : debtorsOf balances with _ | ⟨x, xs⟩
      · rw [hdeb, loopAux_nil_left] at hts
        injection hts with h2
        rw [hsimp, ← h2]
      · rw [hdeb, h, loopAux_nil_right] at hts
        injection hts with h2
        rw [hsimp, ← h2]

/-- C4 witness: with a single creditor and no debtors the sweep emits
nothing. -/
theorem transaction_count_bound_witness :
    simplifyDebts [("A", (1 : ℚ))] = [] :=
  (transaction_count_bound [("A", (1 : ℚ))]).2
    (Or.inl (by norm_num [debtorsOf, sortAsc]))

/-! ### Settlement completeness: residual tracking for the sweep -/

lemma netAfter_cons (t : Debt) (ts : List Debt) (b : ℚ) (m : String) :
    netAfter (t :: ts) b m =
      netAfter ts (b + (if t.debtor = m then t.amount else 0) -
        (if t.creditor = m then t.amount else 0)) m := rfl

lemma netAfter_skip (t : Debt) (ts : List Debt) (b : ℚ) (m : String)
    (h1 : ¬ t.debtor = m) (h2 : ¬ t.creditor = m) :
    netAfter (t :: ts) b m = netAfter ts b m := by
  rw [netAfter_cons, if_neg h1, if_neg h2, add_zero, sub_zero]

lemma netAfter_of_not_mem (m : String) : ∀ (ts : List Debt) (b : ℚ),
    (∀ t ∈ ts, ¬ t.debtor = m ∧ ¬ t.creditor = m) → netAfter ts b m = b := by
  intro ts
  induction ts with
  | nil => intro b _; rfl
  | cons t ts ih =>
    intro b h
    have h1 := h t (List.mem_cons_self t ts)
    rw [netAfter_skip t ts b m h1.1 h1.2,
      ih b (fun t' ht' => h t' (List.mem_cons_of_mem t ht'))]

lemma netAfter_avoid (ts : List Debt) (K1 K2 : List String) (m : String)
    (b : ℚ) (hnames : ∀ t ∈ ts, t.debtor ∈ K1 ∧ t.creditor ∈ K2)
    (hm1 : m ∉ K1) (hm2 : m ∉ K2) : netAfter ts b m = b :=
  netAfter_of_not_mem m ts b (fun t ht =>
    ⟨fun h => hm1 (h ▸ (hnames t ht).1), fun h => hm2 (h ▸ (hnames t ht).2)⟩)

lemma loopAux_names : ∀ (fuel : Nat) (ds cs : List (String × ℚ))
    (ts : List Debt), loopAux fuel ds cs = some ts →
    ∀ t ∈ ts, t.debtor ∈ ds.map Prod.fst ∧ t.creditor ∈ cs.map Prod.fst := by
  intro fuel
  induction fuel with
  | zero =>
    intro ds cs ts hts t ht
    rcases ds with _ | ⟨⟨d, bd⟩, dtl⟩
    · rw [loopAux_nil_left] at hts
      injection hts with h
      rw [← h] at ht
      cases ht
    rcases cs with _ | ⟨⟨c, bc⟩, ctl⟩
    · rw [loopAux_nil_right] at hts
      injection hts with h
      rw [← h] at ht
      cases ht
    rw [loopAux_zero_cons] at hts
    cases hts
  | succ n ih =>
    intro ds cs ts hts t ht
    rcases ds with _ | ⟨⟨d, bd⟩, dtl⟩
    · rw [loopAux_nil_left] at hts
      injection hts with h
      rw [← h] at ht
      cases ht
    rcases cs with _ | ⟨⟨c, bc⟩, ctl⟩
    · rw [loopAux_nil_right] at hts
      injection hts with h
      rw [← h] at ht
      cases ht
    rw [loopAux_succ] at hts
    rcases Option.map_eq_some'.mp hts with ⟨ts', hts', rfl⟩
    rcases List.mem_cons.mp ht with rfl | ht'
    · exact ⟨by simp, by simp⟩
    · obtain ⟨h1, h2⟩ := ih _ _ _ hts' t ht'
      constructor
      · rw [List.map_cons]
        revert h1
        split
        · exact fun h => List.mem_cons_of_mem _ h
        · intro h
          rw [List.map_cons] at h
          exact h
      · rw [List.map_cons]
        revert h2
        split
        · exact fun h => List.mem_cons_of_mem _ h
        · intro h
          rw [List.map_cons] at h
          exact h

lemma lookupBal_mem (bal : List (String × ℚ)) (m : String)
    (h : m ∈ bal.map Prod.fst) : (m, lookupBal bal m) ∈ bal := by
  induction bal with
  | nil => cases h
  | cons kv rest ih =>
    rw [lookupBal]
    by_cases h1 : kv.1 = m
    · rw [if_pos h1]
      exact List.mem_cons.mpr (Or.inl (by rw [← h1]))
    · rw [if_neg h1]
      rw [List.map_cons, List.mem_cons] at h
      exact List.mem_cons_of_mem _
        (ih (h.resolve_left (fun hh => h1 hh.symm)))

lemma val_eq_of_mem_nodup : ∀ (bal : List (String × ℚ)) (m : String)
    (x y : ℚ), (bal.map Prod.fst).Nodup → (m, x) ∈ bal → (m, y) ∈ bal →
    x = y := by
  intro bal
  induction bal with
  | nil => intro m x y _ hx _; cases hx
  | cons kv rest ih =>
    intro m x y hnd hx hy
    rw [List.map_cons, List.nodup_cons] at hnd
    rcases List.mem_cons.mp hx with h1 | h1
    · rcases List.mem_cons.mp hy with h2 | h2
      · exact congrArg Prod.snd (h1.trans h2.symm)
      · exfalso
        apply hnd.1
        rw [show kv.1 = m from congrArg Prod.fst h1.symm]
        exact List.mem_map_of_mem Prod.fst h2
    · rcases List.mem_cons.mp hy with h2 | h2
      · exfalso
        apply hnd.1
        rw [show kv.1 = m from congrArg Prod.fst h2.symm]
        exact List.mem_map_of_mem Prod.fst h1
      · exact ih m x y hnd.2 h1 h2

lemma list_sum_nonneg : ∀ (l : List ℚ), (∀ x ∈ l, 0 ≤ x) → 0 ≤ l.sum := by
  intro l
  induction l with
  | nil => intro _; simp
  | cons y ys ih =>
    intro h
    rw [List.sum_cons]
    have := h y (List.mem_cons_self y ys)
    have := ih (fun x hx => h x (List.mem_cons_of_mem y hx))
    linarith

lemma list_sum_nonpos : ∀ (l : List ℚ), (∀ x ∈ l, x ≤ 0) → l.sum ≤ 0 := by
  intro l
  induction l with
  | nil => intro _; simp
  | cons y ys ih =>
    intro h
    rw [List.sum_cons]
    have := h y (List.mem_cons_self y ys)
    have := ih (fun x hx => h x (List.mem_cons_of_mem y hx))
    linarith

lemma le_sum_of_mem : ∀ (l : List ℚ), (∀ x ∈ l, 0 ≤ x) → ∀ a ∈ l,
    a ≤ l.sum := by
  intro l
  induction l with
  | nil => intro _ a ha; cases ha
  | cons y ys ih =>
    intro h a ha
    rw [List.sum_cons]
    rcases List.mem_cons.mp ha with rfl | ha'
    · have := list_sum_nonneg ys (fun x hx => h x (List.mem_cons_of_mem a hx))
      linarith
    · have h1 := ih (fun x hx => h x (List.mem_cons_of_mem y hx)) a ha'
      have h2 := h y (List.mem_cons_self y ys)
      linarith

lemma sum_le_of_mem : ∀ (l : List ℚ), (∀ x ∈ l, x ≤ 0) → ∀ a ∈ l,
    l.sum ≤ a := by
  intro l
  induction l with
  | nil => intro _ a ha; cases ha
  | cons y ys ih =>
    intro h a ha
    rw [List.sum_cons]
    rcases List.mem_cons.mp ha with rfl | ha'
    · have := list_sum_nonpos ys (fun x hx => h x (List.mem_cons_of_mem a hx))
      linarith
    · have h1 := ih (fun x hx => h x (List.mem_cons_of_mem y hx)) a ha'
      have h2 := h y (List.mem_cons_self y ys)
      linarith

lemma sumVals_perm {l1 l2 : List (String × ℚ)} (h : List.Perm l1 l2) :
    sumVals l1 = sumVals l2 :=
  (h.map Prod.snd).sum_eq

lemma abs_sumVals_le (l : List (String × ℚ))
    (h : ∀ kv ∈ l, |kv.2| ≤ 1 / 100) :
    |sumVals l| ≤ (l.length : ℚ) * (1 / 100) := by
  induction l with
  | nil => simp [sumVals]
  | cons kv rest ih =>
    rw [sumVals_cons, List.length_cons]
    have h1 := h kv (List.mem_cons_self kv rest)
    have h2 := ih (fun kv' hkv' => h kv' (List.mem_cons_of_mem kv hkv'))
    have h3 := abs_add kv.2 (sumVals rest)
    push_cast
    linarith

lemma sumVals_parts_sum (l : List (String × ℚ)) :
    sumVals l = sumVals (l.filter (fun kv => kv.2 < -0.01)) +
      sumVals (l.filter (fun kv => 0.01 < kv.2)) +
      sumVals (l.filter (fun kv => ¬(kv.2 < -0.01) ∧ ¬(0.01 < kv.2))) := by
  induction l with
  | nil => simp [sumVals]
  | cons kv rest ih =>
    rw [sumVals_cons, List.filter_cons, List.filter_cons, List.filter_cons]
    by_cases h1 : kv.2 < -0.01
    · have h2 : ¬ (0.01 : ℚ) < kv.2 := by
        intro hcon
        norm_num at h1 hcon
        linarith
      rw [if_pos (by simpa using h1), if_neg (by simpa using h2),
        if_neg (by simp only [decide_eq_true_eq]; exact fun hc => hc.1 h1),
        sumVals_cons, ih]
      ring
    · by_cases h2 : (0.01 : ℚ) < kv.2
      · rw [if_neg (by simpa using h1), if_pos (by simpa using h2),
          if_neg (by simp only [decide_eq_true_eq]; exact fun hc => hc.2 h2),
          sumVals_cons, ih]
        ring
      · rw [if_neg (by simpa using h1), if_neg (by simpa using h2),
          if_pos (by simp only [decide_eq_true_eq]; exact ⟨h1, h2⟩),
          sumVals_cons, ih]
        ring

lemma sumVals_parts_len (l : List (String × ℚ)) :
    l.length = (l.filter (fun kv => kv.2 < -0.01)).length +
      (l.filter (fun kv => 0.01 < kv.2)).length +
      (l.filter (fun kv => ¬(kv.2 < -0.01) ∧ ¬(0.01 < kv.2))).length := by
  induction l with
  | nil => rfl
  | cons kv rest ih =>
    rw [List.length_cons, List.filter_cons, List.filter_cons, List.filter_cons]
    by_cases h1 : kv.2 < -0.01
    · have h2 : ¬ (0.01 : ℚ) < kv.2 := by
        intro hcon
        norm_num at h1 hcon
        linarith
      rw [if_pos (by simpa using h1), if_neg (by simpa using h2),
        if_neg (by simp only [decide_eq_true_eq]; exact fun hc => hc.1 h1),
        List.length_cons, ih]
      omega
    · by_cases h2 : (0.01 : ℚ) < kv.2
      · rw [if_neg (by simpa using h1), if_pos (by simpa using h2),
          if_neg (by simp only [decide_eq_true_eq]; exact fun hc => hc.2 h2),
          List.length_cons, ih]
        omega
      · rw [if_neg (by simpa using h1), if_neg (by simpa using h2),
          if_pos (by simp only [decide_eq_true_eq]; exact ⟨h1, h2⟩),
          List.length_cons, ih]
        omega

lemma sumVals_pair (p : String) (x : ℚ) (l : List (String × ℚ)) :
    sumVals ((p, x) :: l) = x + sumVals l := sumVals_cons (p, x) l

lemma residual_left_nil (fuel : Nat) (cs : List (String × ℚ)) (ts : List Debt)
    (Hc : ∀ kv ∈ cs, 0 ≤ kv.2) (Hs : loopAux fuel [] cs = some ts) :
    (∀ kv ∈ ([] : List (String × ℚ)), netAfter ts kv.2 kv.1 ≤ 0 ∧
        -netAfter ts kv.2 kv.1 ≤ max (1 / 100)
          (-(sumVals ([] : List (String × ℚ)) + sumVals cs) +
            (cs.length : ℚ) * (1 / 100))) ∧
      (∀ kv ∈ cs, 0 ≤ netAfter ts kv.2 kv.1 ∧
        netAfter ts kv.2 kv.1 ≤ max (1 / 100)
          ((sumVals ([] : List (String × ℚ)) + sumVals cs) +
            ((([] : List (String × ℚ)).length : ℚ)) * (1 / 100))) := by
  rw [loopAux_nil_left] at Hs
  injection Hs with h
  subst h
  constructor
  · intro kv hkv
    cases hkv
  · intro kv hkv
    have h0 : netAfter [] kv.2 kv.1 = kv.2 := rfl
    rw [h0]
    refine ⟨Hc kv hkv, ?_⟩
    have h1 : kv.2 ≤ (cs.map Prod.snd).sum :=
      le_sum_of_mem (cs.map Prod.snd)
        (fun x hx => by
          obtain ⟨kv', hkv', rfl⟩ := List.mem_map.mp hx
          exact Hc kv' hkv')
        kv.2 (List.mem_map_of_mem Prod.snd hkv)
    have h1' : kv.2 ≤ sumVals cs := h1
    refine le_trans ?_ (le_max_right _ _)
    have h2 : sumVals ([] : List (String × ℚ)) = 0 := rfl
    rw [h2]
    simp only [List.length_nil, Nat.cast_zero]
    linarith

lemma residual_right_nil (fuel : Nat) (d0 : String × ℚ)
    (dtl : List (String × ℚ)) (ts : List Debt)
    (Hd : ∀ kv ∈ d0 :: dtl, kv.2 ≤ 0)
    (Hs : loopAux fuel (d0 :: dtl) [] = some ts) :
    (∀ kv ∈ d0 :: dtl, netAfter ts kv.2 kv.1 ≤ 0 ∧
        -netAfter ts kv.2 kv.1 ≤ max (1 / 100)
          (-(sumVals (d0 :: dtl) + sumVals ([] : List (String × ℚ))) +
            ((([] : List (String × ℚ)).length : ℚ)) * (1 / 100))) ∧
      (∀ kv ∈ ([] : List (String × ℚ)), 0 ≤ netAfter ts kv.2 kv.1 ∧
        netAfter ts kv.2 kv.1 ≤ max (1 / 100)
          ((sumVals (d0 :: dtl) + sumVals ([] : List (String × ℚ))) +
            (((d0 :: dtl).length : ℚ)) * (1 / 100))) := by
  rw [loopAux_nil_right] at Hs
  injection Hs with h
  subst h
  constructor
  · intro kv hkv
    have h0 : netAfter [] kv.2 kv.1 = kv.2 := rfl
    rw [h0]
    refine ⟨Hd kv hkv, ?_⟩
    have h1 : ((d0 :: dtl).map Prod.snd).sum ≤ kv.2 :=
      sum_le_of_mem ((d0 :: dtl).map Prod.snd)
        (fun x hx => by
          obtain ⟨kv', hkv', rfl⟩ := List.mem_map.mp hx
          exact Hd kv' hkv')
        kv.2 (List.mem_map_of_mem Prod.snd hkv)
    have h1' : sumVals (d0 :: dtl) ≤ kv.2 := h1
    refine le_trans ?_ (le_max_right _ _)
    have h2 : sumVals ([] : List (String × ℚ)) = 0 := rfl
    rw [h2]
    simp only [List.length_nil, Nat.cast_zero]
    linarith
  · intro kv hkv
    cases hkv

/-- The inductive residual bound for the sweep: every debtor's net position
after the emitted transactions stays in `[−B_d, 0]` and every creditor's in
`[0, B_c]`, where the bounds collect the running signed total and one
tolerance unit per pending creditor (resp. debtor).  This is the loop
invariant behind the settlement-completeness claim. -/
lemma loopAux_residual_bound : ∀ (fuel : Nat) (ds cs : List (String × ℚ))
    (ts : List Debt),
    (∀ kv ∈ ds, kv.2 ≤ 0) → (∀ kv ∈ cs, 0 ≤ kv.2) →
    ((ds ++ cs).map Prod.fst).Nodup →
    loopAux fuel ds cs = some ts →
    (∀ kv ∈ ds, netAfter ts kv.2 kv.1 ≤ 0 ∧
        -netAfter ts kv.2 kv.1 ≤ max (1 / 100)
          (-(sumVals ds + sumVals cs) + (cs.length : ℚ) * (1 / 100))) ∧
      (∀ kv ∈ cs, 0 ≤ netAfter ts kv.2 kv.1 ∧
        netAfter ts kv.2 kv.1 ≤ max (1 / 100)
          ((sumVals ds + sumVals cs) + (ds.length : ℚ) * (1 / 100))) := by
  intro fuel
  induction fuel with
  | zero =>
    intro ds cs ts Hd Hc Hnd Hs
    rcases ds with _ | ⟨d0, dtl⟩
    · exact residual_left_nil 0 cs ts Hc Hs
    rcases cs with _ | ⟨c0, ctl⟩
    · exact residual_right_nil 0 d0 dtl ts Hd Hs
    rcases d0 with ⟨d, bd⟩
    rcases c0 with ⟨c, bc⟩
    rw [loopAux_zero_cons] at Hs
    cases Hs
  | succ n ih =>
    intro ds cs ts Hd Hc Hnd Hs
    rcases ds with _ | ⟨⟨d, bd⟩, dtl⟩
    · exact residual_left_nil _ cs ts Hc Hs
    rcases cs with _ | ⟨⟨c, bc⟩, ctl⟩
    · exact residual_right_nil _ _ dtl ts Hd Hs
    have h001 : (0.01 : ℚ) = 1 / 100 := by norm_num
    have hbd : bd ≤ 0 := Hd _ (List.mem_cons_self _ _)
    have hbc : 0 ≤ bc := Hc _ (List.mem_cons_self _ _)
    have ha0 : 0 ≤ min |bd| bc := le_min (abs_nonneg bd) hbc
    have haL : min |bd| bc ≤ -bd := by
      rw [← abs_of_nonpos hbd]
      exact min_le_left _ _
    have haR : min |bd| bc ≤ bc := min_le_right _ _
    have hbd' : bd + min |bd| bc ≤ 0 := by linarith
    have hbc' : 0 ≤ bc - min |bd| bc := by linarith
    have hK : (((d, bd) :: dtl ++ (c, bc) :: ctl).map Prod.fst) =
        d :: (dtl.map Prod.fst ++ c :: ctl.map Prod.fst) := by
      rw [List.cons_append, List.map_cons, List.map_append, List.map_cons]
    rw [hK] at Hnd
    have hd_notin := (List.nodup_cons.mp Hnd).1
    have hnd2 := (List.nodup_cons.mp Hnd).2
    rw [List.mem_append, List.mem_cons] at hd_notin
    push_neg at hd_notin
    have hd_dtl : d ∉ dtl.map Prod.fst := hd_notin.1
    have hdc : ¬ d = c := hd_notin.2.1
    have hd_ctl : d ∉ ctl.map Prod.fst := hd_notin.2.2
    have hdisj := List.disjoint_of_nodup_append hnd2
    have hc_dtl : c ∉ dtl.map Prod.fst := fun hmem =>
      hdisj hmem (List.mem_cons_self _ _)
    have hc_ctl : c ∉ ctl.map Prod.fst :=
      (List.nodup_cons.mp (List.nodup_append.mp hnd2).2.1).1
    have hdtl_nd : (dtl.map Prod.fst).Nodup := (List.nodup_append.mp hnd2).1
    have hctl_nd : (ctl.map Prod.fst).Nodup :=
      (List.nodup_cons.mp (List.nodup_append.mp hnd2).2.1).2
    rw [loopAux_succ] at Hs
    rcases Option.map_eq_some'.mp Hs with ⟨ts', Hs', rfl⟩
    by_cases hA : |bd + min |bd| bc| < (0.01 : ℚ)
    · by_cases hB : bc - min |bd| bc < (0.01 : ℚ)
      · -- both residuals inside the band: recurse on (dtl, ctl)
        rw [if_pos hA, if_pos hB] at Hs'
        obtain ⟨hAa, hAb⟩ := abs_lt.mp hA
        rw [h001] at hAa hAb hB
        have F1 : ∀ kv ∈ dtl, kv.2 ≤ 0 := fun kv hkv =>
          Hd kv (List.mem_cons_of_mem _ hkv)
        have F2 : ∀ kv ∈ ctl, 0 ≤ kv.2 := fun kv hkv =>
          Hc kv (List.mem_cons_of_mem _ hkv)
        have F3 : ((dtl ++ ctl).map Prod.fst).Nodup := by
          rw [List.map_append]
          refine List.nodup_append.mpr ⟨hdtl_nd, hctl_nd, ?_⟩
          intro x hx1 hx2
          exact hdisj hx1 (List.mem_cons_of_mem _ hx2)
        have IH := ih dtl ctl ts' F1 F2 F3 Hs'
        have hnames := loopAux_names n dtl ctl ts' Hs'
        have monoD : max (1 / 100 : ℚ)
            (-(sumVals dtl + sumVals ctl) + (ctl.length : ℚ) * (1 / 100)) ≤
            max (1 / 100)
              (-(sumVals ((d, bd) :: dtl) + sumVals ((c, bc) :: ctl)) +
                ((((c, bc) :: ctl).length : ℚ)) * (1 / 100)) := by
          apply max_le_max (le_refl _)
          rw [sumVals_pair, sumVals_pair, List.length_cons]
          push_cast
          linarith
        have monoC : max (1 / 100 : ℚ)
            ((sumVals dtl + sumVals ctl) + (dtl.length : ℚ) * (1 / 100)) ≤
            max (1 / 100)
              ((sumVals ((d, bd) :: dtl) + sumVals ((c, bc) :: ctl)) +
                ((((d, bd) :: dtl).length : ℚ)) * (1 / 100)) := by
          apply max_le_max (le_refl _)
          rw [sumVals_pair, sumVals_pair, List.length_cons]
          push_cast
          linarith
        constructor
        · intro kv hkv
          rcases List.mem_cons.mp hkv with heq | hkv'
          · have hk1 : kv.1 = d := by rw [heq]
            have hk2 : kv.2 = bd := by rw [heq]
            rw [hk1, hk2]
            have hstep : netAfter
                (Debt.mk d c (min |bd| bc) :: ts') bd d =
                netAfter ts' (bd + min |bd| bc) d := by
              rw [netAfter_cons, if_pos rfl,
                if_neg (fun hh => hdc hh.symm), sub_zero]
            rw [hstep,
              netAfter_avoid ts' (dtl.map Prod.fst) (ctl.map Prod.fst) d _
                hnames hd_dtl hd_ctl]
            exact ⟨hbd', le_trans (by linarith) (le_max_left _ _)⟩
          · have hm_d : ¬ (Debt.mk d c (min |bd| bc)).debtor = kv.1 := by
              intro hh
              have hh' : d = kv.1 := hh
              exact hd_dtl (by
                rw [hh']
                exact List.mem_map_of_mem Prod.fst hkv')
            have hm_c : ¬ (Debt.mk d c (min |bd| bc)).creditor = kv.1 := by
              intro hh
              have hh' : c = kv.1 := hh
              exact hc_dtl (by
                rw [hh']
                exact List.mem_map_of_mem Prod.fst hkv')
            rw [netAfter_skip _ _ _ _ hm_d hm_c]
            have hres := IH.1 kv hkv'
            exact ⟨hres.1, le_trans hres.2 monoD⟩
        · intro kv hkv
          rcases List.mem_cons.mp hkv with heq | hkv'
          · have hk1 : kv.1 = c := by rw [heq]
            have hk2 : kv.2 = bc := by rw [heq]
            rw [hk1, hk2]
            have hstep : netAfter
                (Debt.mk d c (min |bd| bc) :: ts') bc c =
                netAfter ts' (bc - min |bd| bc) c := by
              rw [netAfter_cons, if_neg hdc, if_pos rfl, add_zero]
            rw [hstep,
              netAfter_avoid ts' (dtl.map Prod.fst) (ctl.map Prod.fst) c _
                hnames hc_dtl hc_ctl]
            exact ⟨hbc', le_trans (by linarith) (le_max_left _ _)⟩
          · have hm_d : ¬ (Debt.mk d c (min |bd| bc)).debtor = kv.1 := by
              intro hh
              have hh' : d = kv.1 := hh
              exact hd_ctl (by
                rw [hh']
                exact List.mem_map_of_mem Prod.fst hkv')
            have hm_c : ¬ (Debt.mk d c (min |bd| bc)).creditor = kv.1 := by
              intro hh
              have hh' : c = kv.1 := hh
              exact hc_ctl (by
                rw [hh']
                exact List.mem_map_of_mem Prod.fst hkv')
            rw [netAfter_skip _ _ _ _ hm_d hm_c]
            have hres := IH.2 kv hkv'
            exact ⟨hres.1, le_trans hres.2 monoC⟩
      · -- only the debtor residual is inside the band
        rw [if_pos hA, if_neg hB] at Hs'
        obtain ⟨hAa, hAb⟩ := abs_lt.mp hA
        rw [h001] at hAa hAb
        have F1 : ∀ kv ∈ dtl, kv.2 ≤ 0 := fun kv hkv =>
          Hd kv (List.mem_cons_of_mem _ hkv)
        have F2 : ∀ kv ∈ (c, bc - min |bd| bc) :: ctl, 0 ≤ kv.2 := by
          intro kv hkv
          rcases List.mem_cons.mp hkv with heq | hkv'
          · have : kv.2 = bc - min |bd| bc := by rw [heq]
            rw [this]
            exact hbc'
          · exact Hc kv (List.mem_cons_of_mem _ hkv')
        have F3 : ((dtl ++ (c, bc - min |bd| bc) :: ctl).map
            Prod.fst).Nodup := by
          rw [List.map_append, List.map_cons]
          exact hnd2
        have IH := ih dtl ((c, bc - min |bd| bc) :: ctl) ts' F1 F2 F3 Hs'
        have hnames := loopAux_names n dtl ((c, bc - min |bd| bc) :: ctl)
          ts' Hs'
        have monoD : max (1 / 100 : ℚ)
            (-(sumVals dtl + sumVals ((c, bc - min |bd| bc) :: ctl)) +
              ((((c, bc - min |bd| bc) :: ctl).length : ℚ)) * (1 / 100)) ≤
            max (1 / 100)
              (-(sumVals ((d, bd) :: dtl) + sumVals ((c, bc) :: ctl)) +
                ((((c, bc) :: ctl).length : ℚ)) * (1 / 100)) := by
          apply max_le_max (le_refl _)
          rw [sumVals_pair, sumVals_pair, sumVals_pair, List.length_cons,
            List.length_cons]
          push_cast
          linarith
        have monoC : max (1 / 100 : ℚ)
            ((sumVals dtl + sumVals ((c, bc - min |bd| bc) :: ctl)) +
              (dtl.length : ℚ) * (1 / 100)) ≤
            max (1 / 100)
              ((sumVals ((d, bd) :: dtl) + sumVals ((c, bc) :: ctl)) +
                ((((d, bd) :: dtl).length : ℚ)) * (1 / 100)) := by
          apply max_le_max (le_refl _)
          rw [sumVals_pair, sumVals_pair, sumVals_pair, List.length_cons]
          push_cast
          linarith
        have hd_K2 : d ∉ ((c, bc - min |bd| bc) :: ctl).map Prod.fst := by
          rw [List.map_cons]
          intro hmem
          rcases List.mem_cons.mp hmem with hh | hh
          · exact hdc hh
          · exact hd_ctl hh
        constructor
        · intro kv hkv
          rcases List.mem_cons.mp hkv with heq | hkv'
          · have hk1 : kv.1 = d := by rw [heq]
            have hk2 : kv.2 = bd := by rw [heq]
            rw [hk1, hk2]
            have hstep : netAfter
                (Debt.mk d c (min |bd| bc) :: ts') bd d =
                netAfter ts' (bd + min |bd| bc) d := by
              rw [netAfter_cons, if_pos rfl,
                if_neg (fun hh => hdc hh.symm), sub_zero]
            rw [hstep,
              netAfter_avoid ts' (dtl.map Prod.fst) _ d _
                hnames hd_dtl hd_K2]
            exact ⟨hbd', le_trans (by linarith) (le_max_left _ _)⟩
          · have hm_d : ¬ (Debt.mk d c (min |bd| bc)).debtor = kv.1 := by
              intro hh
              have hh' : d = kv.1 := hh
              exact hd_dtl (by
                rw [hh']
                exact List.mem_map_of_mem Prod.fst hkv')
            have hm_c : ¬ (Debt.mk d c (min |bd| bc)).creditor = kv.1 := by
              intro hh
              have hh' : c = kv.1 := hh
              exact hc_dtl (by
                rw [hh']
                exact List.mem_map_of_mem Prod.fst hkv')
            rw [netAfter_skip _ _ _ _ hm_d hm_c]
            have hres := IH.1 kv hkv'
            exact ⟨hres.1, le_trans hres.2 monoD⟩
        · intro kv hkv
          rcases List.mem_cons.mp hkv with heq | hkv'
          · have hk1 : kv.1 = c := by rw [heq]
            have hk2 : kv.2 = bc := by rw [heq]
            rw [hk1, hk2]
            have hstep : netAfter
                (Debt.mk d c (min |bd| bc) :: ts') bc c =
                netAfter ts' (bc - min |bd| bc) c := by
              rw [netAfter_cons, if_neg hdc, if_pos rfl, add_zero]
            rw [hstep]
            have hres := IH.2 (c, bc - min |bd| bc) (List.mem_cons_self _ _)
            exact ⟨hres.1, le_trans hres.2 monoC⟩
          · have hm_d : ¬ (Debt.mk d c (min |bd| bc)).debtor = kv.1 := by
              intro hh
              have hh' : d = kv.1 := hh
              exact hd_ctl (by
                rw [hh']
                exact List.mem_map_of_mem Prod.fst hkv')
            have hm_c : ¬ (Debt.mk d c (min |bd| bc)).creditor = kv.1 := by
              intro hh
              have hh' : c = kv.1 := hh
              exact hc_ctl (by
                rw [hh']
                exact List.mem_map_of_mem Prod.fst hkv')
            rw [netAfter_skip _ _ _ _ hm_d hm_c]
            have hres := IH.2 kv (List.mem_cons_of_mem _ hkv')
            exact ⟨hres.1, le_trans hres.2 monoC⟩
    · by_cases hB : bc - min |bd| bc < (0.01 : ℚ)
      · -- only the creditor residual is inside the band
        rw [if_neg hA, if_pos hB] at Hs'
        rw [h001] at hB
        have F1 : ∀ kv ∈ (d, bd + min |bd| bc) :: dtl, kv.2 ≤ 0 := by
          intro kv hkv
          rcases List.mem_cons.mp hkv with heq | hkv'
          · have : kv.2 = bd + min |bd| bc := by rw [heq]
            rw [this]
            exact hbd'
          · exact Hd kv (List.mem_cons_of_mem _ hkv')
        have F2 : ∀ kv ∈ ctl, 0 ≤ kv.2 := fun kv hkv =>
          Hc kv (List.mem_cons_of_mem _ hkv)
        have F3 : (((d, bd + min |bd| bc) :: dtl ++ ctl).map
            Prod.fst).Nodup := by
          rw [List.cons_append, List.map_cons, List.map_append]
          refine List.nodup_cons.mpr ⟨?_, ?_⟩
          · rw [List.mem_append]
            rintro (h | h)
            · exact hd_dtl h
            · exact hd_ctl h
          · refine List.nodup_append.mpr ⟨hdtl_nd, hctl_nd, ?_⟩
            intro x hx1 hx2
            exact hdisj hx1 (List.mem_cons_of_mem _ hx2)
        have IH := ih ((d, bd + min |bd| bc) :: dtl) ctl ts' F1 F2 F3 Hs'
        have hnames := loopAux_names n ((d, bd + min |bd| bc) :: dtl) ctl
          ts' Hs'
        have monoD : max (1 / 100 : ℚ)
            (-(sumVals ((d, bd + min |bd| bc) :: dtl) + sumVals ctl) +
              (ctl.length : ℚ) * (1 / 100)) ≤
            max (1 / 100)
              (-(sumVals ((d, bd) :: dtl) + sumVals ((c, bc) :: ctl)) +
                ((((c, bc) :: ctl).length : ℚ)) * (1 / 100)) := by
          apply max_le_max (le_refl _)
          rw [sumVals_pair, sumVals_pair, sumVals_pair, List.length_cons]
          push_cast
          linarith
        have monoC : max (1 / 100 : ℚ)
            ((sumVals ((d, bd + min |bd| bc) :: dtl) + sumVals ctl) +
              ((((d, bd + min |bd| bc) :: dtl).length : ℚ)) * (1 / 100)) ≤
            max (1 / 100)
              ((sumVals ((d, bd) :: dtl) + sumVals ((c, bc) :: ctl)) +
                ((((d, bd) :: dtl).length : ℚ)) * (1 / 100)) := by
          apply max_le_max (le_refl _)
          rw [sumVals_pair, sumVals_pair, sumVals_pair, List.length_cons,
            List.length_cons]
          push_cast
          linarith
        have hc_K1 : c ∉ ((d, bd + min |bd| bc) :: dtl).map Prod.fst := by
          rw [List.map_cons]
          intro hmem
          rcases List.mem_cons.mp hmem with hh | hh
          · exact hdc hh.symm
          · exact hc_dtl hh
        constructor
        · intro kv hkv
          rcases List.mem_cons.mp hkv with heq | hkv'
          · have hk1 : kv.1 = d := by rw [heq]
            have hk2 : kv.2 = bd := by rw [heq]
            rw [hk1, hk2]
            have hstep : netAfter
                (Debt.mk d c (min |bd| bc) :: ts') bd d =
                netAfter ts' (bd + min |bd| bc) d := by
              rw [netAfter_cons, if_pos rfl,
                if_neg (fun hh => hdc hh.symm), sub_zero]
            rw [hstep]
            have hres := IH.1 (d, bd + min |bd| bc) (List.mem_cons_self _ _)
            exact ⟨hres.1, le_trans hres.2 monoD⟩
          · have hm_d : ¬ (Debt.mk d c (min |bd| bc)).debtor = kv.1 := by
              intro hh
              have hh' : d = kv.1 := hh
              exact hd_dtl (by
                rw [hh']
                exact List.mem_map_of_mem Prod.fst hkv')
            have hm_c : ¬ (Debt.mk d c (min |bd| bc)).creditor = kv.1 := by
              intro hh
              have hh' : c = kv.1 := hh
              exact hc_dtl (by
                rw [hh']
                exact List.mem_map_of_mem Prod.fst hkv')
            rw [netAfter_skip _ _ _ _ hm_d hm_c]
            have hres := IH.1 kv (List.mem_cons_of_mem _ hkv')
            exact ⟨hres.1, le_trans hres.2 monoD⟩
        · intro kv hkv
          rcases List.mem_cons.mp hkv with heq | hkv'
          · have hk1 : kv.1 = c := by rw [heq]
            have hk2 : kv.2 = bc := by rw [heq]
            rw [hk1, hk2]
            have hstep : netAfter
                (Debt.mk d c (min |bd| bc) :: ts') bc c =
                netAfter ts' (bc - min |bd| bc) c := by
              rw [netAfter_cons, if_neg hdc, if_pos rfl, add_zero]
            rw [hstep,
              netAfter_avoid ts' _ (ctl.map Prod.fst) c _
                hnames hc_K1 hc_ctl]
            exact ⟨hbc', le_trans (by linarith) (le_max_left _ _)⟩
          · have hm_d : ¬ (Debt.mk d c (min |bd| bc)).debtor = kv.1 := by
              intro hh
              have hh' : d = kv.1 := hh
              exact hd_ctl (by
                rw [hh']
                exact List.mem_map_of_mem Prod.fst hkv')
            have hm_c : ¬ (Debt.mk d c (min |bd| bc)).creditor = kv.1 := by
              intro hh
              have hh' : c = kv.1 := hh
              exact hc_ctl (by
                rw [hh']
                exact List.mem_map_of_mem Prod.fst hkv')
            rw [netAfter_skip _ _ _ _ hm_d hm_c]
            have hres := IH.2 kv hkv'
            exact ⟨hres.1, le_trans hres.2 monoC⟩
      · -- neither residual inside the band: both heads stay
        rw [if_neg hA, if_neg hB] at Hs'
        have F1 : ∀ kv ∈ (d, bd + min |bd| bc) :: dtl, kv.2 ≤ 0 := by
          intro kv hkv
          rcases List.mem_cons.mp hkv with heq | hkv'
          · have : kv.2 = bd + min |bd| bc := by rw [heq]
            rw [this]
            exact hbd'
          · exact Hd kv (List.mem_cons_of_mem _ hkv')
        have F2 : ∀ kv ∈ (c, bc - min |bd| bc) :: ctl, 0 ≤ kv.2 := by
          intro kv hkv
          rcases List.mem_cons.mp hkv with heq | hkv'
          · have : kv.2 = bc - min |bd| bc := by rw [heq]
            rw [this]
            exact hbc'
          · exact Hc kv (List.mem_cons_of_mem _ hkv')
        have F3 : (((d, bd + min |bd| bc) :: dtl ++
            (c, bc - min |bd| bc) :: ctl).map Prod.fst).Nodup := by
          rw [List.cons_append, List.map_cons, List.map_append, List.map_cons]
          refine List.nodup_cons.mpr ⟨?_, hnd2⟩
          rw [List.mem_append, List.mem_cons]
          push_neg
          exact ⟨hd_dtl, hdc, hd_ctl⟩
        have IH := ih ((d, bd + min |bd| bc) :: dtl)
          ((c, bc - min |bd| bc) :: ctl) ts' F1 F2 F3 Hs'
        have monoD : max (1 / 100 : ℚ)
            (-(sumVals ((d, bd + min |bd| bc) :: dtl) +
                sumVals ((c, bc - min |bd| bc) :: ctl)) +
              ((((c, bc - min |bd| bc) :: ctl).length : ℚ)) * (1 / 100)) ≤
            max (1 / 100)
              (-(sumVals ((d, bd) :: dtl) + sumVals ((c, bc) :: ctl)) +
                ((((c, bc) :: ctl).length : ℚ)) * (1 / 100)) := by
          apply max_le_max (le_refl _)
          rw [sumVals_pair, sumVals_pair, sumVals_pair, sumVals_pair,
            List.length_cons, List.length_cons]
          push_cast
          linarith
        have monoC : max (1 / 100 : ℚ)
            ((sumVals ((d, bd + min |bd| bc) :: dtl) +
                sumVals ((c, bc - min |bd| bc) :: ctl)) +
              ((((d, bd + min |bd| bc) :: dtl).length : ℚ)) * (1 / 100)) ≤
            max (1 / 100)
              ((sumVals ((d, bd) :: dtl) + sumVals ((c, bc) :: ctl)) +
                ((((d, bd) :: dtl).length : ℚ)) * (1 / 100)) := by
          apply max_le_max (le_refl _)
          rw [sumVals_pair, sumVals_pair, sumVals_pair, sumVals_pair,
            List.length_cons, List.length_cons]
          push_cast
          linarith
        constructor
        · intro kv hkv
          rcases List.mem_cons.mp hkv with heq | hkv'
          · have hk1 : kv.1 = d := by rw [heq]
            have hk2 : kv.2 = bd := by rw [heq]
            rw [hk1, hk2]
            have hstep : netAfter
                (Debt.mk d c (min |bd| bc) :: ts') bd d =
                netAfter ts' (bd + min |bd| bc) d := by
              rw [netAfter_cons, if_pos rfl,
                if_neg (fun hh => hdc hh.symm), sub_zero]
            rw [hstep]
            have hres := IH.1 (d, bd + min |bd| bc) (List.mem_cons_self _ _)
            exact ⟨hres.1, le_trans hres.2 monoD⟩
          · have hm_d : ¬ (Debt.mk d c (min |bd| bc)).debtor = kv.1 := by
              intro hh
              have hh' : d = kv.1 := hh
              exact hd_dtl (by
                rw [hh']
                exact List.mem_map_of_mem Prod.fst hkv')
            have hm_c : ¬ (Debt.mk d c (min |bd| bc)).creditor = kv.1 := by
              intro hh
              have hh' : c = kv.1 := hh
              exact hc_dtl (by
                rw [hh']
                exact List.mem_map_of_mem Prod.fst hkv')
            rw [netAfter_skip _ _ _ _ hm_d hm_c]
            have hres := IH.1 kv (List.mem_cons_of_mem _ hkv')
            exact ⟨hres.1, le_trans hres.2 monoD⟩
        · intro kv hkv
          rcases List.mem_cons.mp hkv with heq | hkv'
          · have hk1 : kv.1 = c := by rw [heq]
            have hk2 : kv.2 = bc := by rw [heq]
            rw [hk1, hk2]
            have hstep : netAfter
                (Debt.mk d c (min |bd| bc) :: ts') bc c =
                netAfter ts' (bc - min |bd| bc) c := by
              rw [netAfter_cons, if_neg hdc, if_pos rfl, add_zero]
            rw [hstep]
            have hres := IH.2 (c, bc - min |bd| bc) (List.mem_cons_self _ _)
            exact ⟨hres.1, le_trans hres.2 monoC⟩
          · have hm_d : ¬ (Debt.mk d c (min |bd| bc)).debtor = kv.1 := by
              intro hh
              have hh' : d = kv.1 := hh
              exact hd_ctl (by
                rw [hh']
                exact List.mem_map_of_mem Prod.fst hkv')
            have hm_c : ¬ (Debt.mk d c (min |bd| bc)).creditor = kv.1 := by
              intro hh
              have hh' : c = kv.1 := hh
              exact hc_ctl (by
                rw [hh']
                exact List.mem_map_of_mem Prod.fst hkv')
            rw [netAfter_skip _ _ _ _ hm_d hm_c]
            have hres := IH.2 kv (List.mem_cons_of_mem _ hkv')
            exact ⟨hres.1, le_trans hres.2 monoC⟩

lemma keys_debtorsOf_nodup (B : List (String × ℚ))
    (h : (B.map Prod.fst).Nodup) :
    ((debtorsOf B).map Prod.fst).Nodup := by
  have hperm : List.Perm ((debtorsOf B).map Prod.fst)
      ((B.filter (fun kv => kv.2 < -0.01)).map Prod.fst) :=
    (sortAsc_perm _).map Prod.fst
  rw [hperm.nodup_iff]
  exact h.sublist ((List.filter_sublist _).map Prod.fst)

lemma keys_creditorsOf_nodup (B : List (String × ℚ))
    (h : (B.map Prod.fst).Nodup) :
    ((creditorsOf B).map Prod.fst).Nodup := by
  have hperm : List.Perm ((creditorsOf B).map Prod.fst)
      ((B.filter (fun kv => 0.01 < kv.2)).map Prod.fst) :=
    (sortDesc_perm _).map Prod.fst
  rw [hperm.nodup_iff]
  exact h.sublist ((List.filter_sublist _).map Prod.fst)

/-- C1 (amended): when every payer and involved participant of every
unsettled expense is a member, applying all emitted Debt transactions to the
computed balances leaves every member's resulting balance within
±(0.01 · |members|) of zero.  The flat ±0.01 guarantee of the claim fails:
each pointer advance may quietly drop a sub-tolerance residual, and those
drops can strand a member beyond ±0.01 (see the counterexample). -/
theorem settlement_completeness_scaled (es : List Expense) (ms : List String)
    (hnd : ms.Nodup)
    (hknown : ∀ e ∈ es, e.settled = false →
      e.payer ∈ ms ∧ ∀ p ∈ e.involved.getD ms, p ∈ ms) :
    ∀ m ∈ ms,
      |netAfter (calculate_debts es ms)
          (lookupBal (compute_balances es ms) m) m| ≤
        (ms.length : ℚ) * (1 / 100) := by
  intro m hm
  have h001 : (0.01 : ℚ) = 1 / 100 := by norm_num
  set B := compute_balances es ms with hBdef
  have hkeys : B.map Prod.fst = ms := by
    rw [hBdef, keys_compute_balances, dedupFirst_eq_self ms hnd]
  have hkeysnd : (B.map Prod.fst).Nodup := by
    rw [hkeys]
    exact hnd
  have hsum : sumVals B = 0 := sumVals_compute_balances es ms hknown
  have hBlen : B.length = ms.length := by
    have h := congrArg List.length hkeys
    simpa using h
  have hinvD : ∀ kv ∈ debtorsOf B, kv.2 ≤ 0 := by
    intro kv hkv
    have h1 := (mem_debtorsOf.mp hkv).2
    have h2 : (-0.01 : ℚ) ≤ 0 := by norm_num
    linarith
  have hinvC : ∀ kv ∈ creditorsOf B, 0 ≤ kv.2 := by
    intro kv hkv
    have h1 := (mem_creditorsOf.mp hkv).2
    have h2 : (0 : ℚ) ≤ 0.01 := by norm_num
    linarith
  have hsome := loopAux_isSome
    ((debtorsOf B).length + (creditorsOf B).length)
    (debtorsOf B) (creditorsOf B) hinvD (le_refl _)
  obtain ⟨ts, hts⟩ := Option.isSome_iff_exists.mp hsome
  have hcalc : calculate_debts es ms = ts := by
    rw [calculate_debts, ← hBdef]
    simp only [simplifyDebts]
    rw [hts]
    rfl
  rw [hcalc]
  have hDnd := keys_debtorsOf_nodup B hkeysnd
  have hCnd := keys_creditorsOf_nodup B hkeysnd
  have hdisjDC : List.Disjoint ((debtorsOf B).map Prod.fst)
      ((creditorsOf B).map Prod.fst) := by
    intro x hx1 hx2
    obtain ⟨kv1, hkv1, hx1'⟩ := List.mem_map.mp hx1
    obtain ⟨kv2, hkv2, hx2'⟩ := List.mem_map.mp hx2
    obtain ⟨hm1, hlt1⟩ := mem_debtorsOf.mp hkv1
    obtain ⟨hm2, hlt2⟩ := mem_creditorsOf.mp hkv2
    have hxx : kv1.1 = kv2.1 := hx1'.trans hx2'.symm
    have heq : kv1.2 = kv2.2 := by
      apply val_eq_of_mem_nodup B kv1.1 _ _ hkeysnd
      · exact hm1
      · rw [hxx]
        exact hm2
    rw [heq] at hlt1
    norm_num at hlt1 hlt2
    linarith
  have hndDC : (((debtorsOf B) ++ (creditorsOf B)).map Prod.fst).Nodup := by
    rw [List.map_append]
    exact List.nodup_append.mpr ⟨hDnd, hCnd, hdisjDC⟩
  have main := loopAux_residual_bound _ _ _ _ hinvD hinvC hndDC hts
  have hnames := loopAux_names _ _ _ _ hts
  have hv : (m, lookupBal B m) ∈ B :=
    lookupBal_mem B m (by rw [hkeys]; exact hm)
  have hS : sumVals (debtorsOf B) + sumVals (creditorsOf B) =
      -(sumVals (B.filter (fun kv => ¬(kv.2 < -0.01) ∧ ¬(0.01 < kv.2)))) := by
    rw [debtorsOf, creditorsOf, sumVals_perm (sortAsc_perm _),
      sumVals_perm (sortDesc_perm _)]
    have hp := sumVals_parts_sum B
    rw [hsum] at hp
    linarith
  have hf3 : |sumVals (B.filter
      (fun kv => ¬(kv.2 < -0.01) ∧ ¬(0.01 < kv.2)))| ≤
      (((B.filter (fun kv => ¬(kv.2 < -0.01) ∧ ¬(0.01 < kv.2))).length : ℚ)) *
        (1 / 100) := by
    apply abs_sumVals_le
    intro kv hkv
    have hmf := List.mem_filter.mp hkv
    simp only [decide_eq_true_eq] at hmf
    obtain ⟨-, hc1, hc2⟩ := hmf
    rw [not_lt] at hc1 hc2
    rw [h001] at hc1 hc2
    apply abs_le.mpr
    constructor <;> linarith
  have hlens := sumVals_parts_len B
  rw [hBlen] at hlens
  have hDlen : (debtorsOf B).length =
      (B.filter (fun kv => kv.2 < -0.01)).length := (sortAsc_perm _).length_eq
  have hClen : (creditorsOf B).length =
      (B.filter (fun kv => 0.01 < kv.2)).length := (sortDesc_perm _).length_eq
  have hmslen : 1 ≤ ms.length := List.length_pos_of_mem hm
  have hms1 : (1 : ℚ) ≤ (ms.length : ℚ) := by exact_mod_cast hmslen
  by_cases hv1 : lookupBal B m < -0.01
  · have hmemD : (m, lookupBal B m) ∈ debtorsOf B :=
      mem_debtorsOf.mpr ⟨hv, hv1⟩
    have hres := main.1 _ hmemD
    rw [abs_of_nonpos hres.1]
    refine le_trans hres.2 ?_
    apply max_le
    · linarith
    · rw [hS, neg_neg, hClen]
      have h1 : sumVals (B.filter
          (fun kv => ¬(kv.2 < -0.01) ∧ ¬(0.01 < kv.2))) ≤
          (((B.filter (fun kv => ¬(kv.2 < -0.01) ∧
            ¬(0.01 < kv.2))).length : ℚ)) * (1 / 100) :=
        le_trans (le_abs_self _) hf3
      have hmemf1 : (m, lookupBal B m) ∈
          B.filter (fun kv => kv.2 < -0.01) :=
        List.mem_filter.mpr ⟨hv, by simpa using hv1⟩
      have hlenf1 := List.length_pos_of_mem hmemf1
      have hnat : (B.filter (fun kv => 0.01 < kv.2)).length +
          (B.filter (fun kv => ¬(kv.2 < -0.01) ∧
            ¬(0.01 < kv.2))).length + 1 ≤ ms.length := by
        omega
      have hcast : ((B.filter (fun kv => 0.01 < kv.2)).length : ℚ) +
          ((B.filter (fun kv => ¬(kv.2 < -0.01) ∧
            ¬(0.01 < kv.2))).length : ℚ) + 1 ≤ (ms.length : ℚ) := by
        exact_mod_cast hnat
      linarith
  · by_cases hv2 : (0.01 : ℚ) < lookupBal B m
    · have hmemC : (m, lookupBal B m) ∈ creditorsOf B :=
        mem_creditorsOf.mpr ⟨hv, hv2⟩
      have hres := main.2 _ hmemC
      rw [abs_of_nonneg hres.1]
      refine le_trans hres.2 ?_
      apply max_le
      · linarith
      · rw [hS, hDlen]
        have h1 : -(sumVals (B.filter
            (fun kv => ¬(kv.2 < -0.01) ∧ ¬(0.01 < kv.2)))) ≤
            (((B.filter (fun kv => ¬(kv.2 < -0.01) ∧
              ¬(0.01 < kv.2))).length : ℚ)) * (1 / 100) :=
          le_trans (neg_le_abs _) hf3
        have hmemf2 : (m, lookupBal B m) ∈
            B.filter (fun kv => 0.01 < kv.2) :=
          List.mem_filter.mpr ⟨hv, by simpa using hv2⟩
        have hlenf2 := List.length_pos_of_mem hmemf2
        have hnat : (B.filter (fun kv => kv.2 < -0.01)).length +
            (B.filter (fun kv => ¬(kv.2 < -0.01) ∧
              ¬(0.01 < kv.2))).length + 1 ≤ ms.length := by
          omega
        have hcast : ((B.filter (fun kv => kv.2 < -0.01)).length : ℚ) +
            ((B.filter (fun kv => ¬(kv.2 < -0.01) ∧
              ¬(0.01 < kv.2))).length : ℚ) + 1 ≤ (ms.length : ℚ) := by
          exact_mod_cast hnat
        linarith
    · have hnotD : m ∉ (debtorsOf B).map Prod.fst := by
        intro hmem
        obtain ⟨kv, hkv, hfst⟩ := List.mem_map.mp hmem
        obtain ⟨hmB, hlt⟩ := mem_debtorsOf.mp hkv
        have hmm : (m, kv.2) ∈ B := by
          rw [← hfst]
          exact hmB
        have heq : kv.2 = lookupBal B m :=
          val_eq_of_mem_nodup B m _ _ hkeysnd hmm hv
        rw [heq] at hlt
        exact hv1 hlt
      have hnotC : m ∉ (creditorsOf B).map Prod.fst := by
        intro hmem
        obtain ⟨kv, hkv, hfst⟩ := List.mem_map.mp hmem
        obtain ⟨hmB, hlt⟩ := mem_creditorsOf.mp hkv
        have hmm : (m, kv.2) ∈ B := by
          rw [← hfst]
          exact hmB
        have heq : kv.2 = lookupBal B m :=
          val_eq_of_mem_nodup B m _ _ hkeysnd hmm hv
        rw [heq] at hlt
        exact hv2 hlt
      rw [netAfter_avoid ts _ _ m _ hnames hnotD hnotC]
      have hb1 : -(0.01 : ℚ) ≤ lookupBal B m := not_lt.mp hv1
      have hb2 : lookupBal B m ≤ 0.01 := not_lt.mp hv2
      rw [h001] at hb1 hb2
      have habs : |lookupBal B m| ≤ 1 / 100 := abs_le.mpr ⟨by linarith, hb2⟩
      refine le_trans habs ?_
      linarith

/-- C1 amended witness: Scenario B — one 10-unit expense between two members
leaves every member within ±(0.01·2) after the emitted transfer. -/
theorem settlement_completeness_scaled_witness :
    |netAfter
        (calculate_debts [Expense.mk "A" 10 (some ["A", "B"]) false]
          ["A", "B"])
        (lookupBal
          (compute_balances [Expense.mk "A" 10 (some ["A", "B"]) false]
            ["A", "B"]) "A") "A"| ≤
      (((["A", "B"] : List String).length : ℚ)) * (1 / 100) :=
  settlement_completeness_scaled
    [Expense.mk "A" 10 (some ["A", "B"]) false] ["A", "B"]
    (by decide) (by decide) "A" (by decide)

/-- C1 counterexample: with members {A, B, X, Y, Z} and expenses X→[A] 1,
Y→[B] 1, Z→[A] 0.008, Z→[B] 0.008, the balances are A = B = −1.008,
X = Y = 1, Z = 0.016.  The sweep pays X and Y in full, drops the two −0.008
debtor residuals as "settled", and exhausts the debtor list, so Z receives
nothing: Z's resulting balance is 0.016, outside ±0.01, although every name
is a member and the balances sum to zero exactly. -/
theorem settlement_completeness_counterexample :
    ¬ (|netAfter
          (calculate_debts
            [Expense.mk "X" 1 (some ["A"]) false,
              Expense.mk "Y" 1 (some ["B"]) false,
              Expense.mk "Z" 0.008 (some ["A"]) false,
              Expense.mk "Z" 0.008 (some ["B"]) false]
            ["A", "B", "X", "Y", "Z"])
          (lookupBal
            (compute_balances
              [Expense.mk "X" 1 (some ["A"]) false,
                Expense.mk "Y" 1 (some ["B"]) false,
                Expense.mk "Z" 0.008 (some ["A"]) false,
                Expense.mk "Z" 0.008 (some ["B"]) false]
              ["A", "B", "X", "Y", "Z"]) "Z") "Z"| ≤ (0.01 : ℚ)) := by
  have hbal : compute_balances
      [Expense.mk "X" 1 (some ["A"]) false,
        Expense.mk "Y" 1 (some ["B"]) false,
        Expense.mk "Z" 0.008 (some ["A"]) false,
        Expense.mk "Z" 0.008 (some ["B"]) false]
      ["A", "B", "X", "Y", "Z"] =
      [("A", -1008 / 1000), ("B", -1008 / 1000), ("X", 1), ("Y", 1),
        ("Z", 16 / 1000)] := by
    simp +decide [compute_balances, applyExpense, initBalances, dedupFirst,
      updateBal]
    norm_num
  have hdebts : calculate_debts
      [Expense.mk "X" 1 (some ["A"]) false,
        Expense.mk "Y" 1 (some ["B"]) false,
        Expense.mk "Z" 0.008 (some ["A"]) false,
        Expense.mk "Z" 0.008 (some ["B"]) false]
      ["A", "B", "X", "Y", "Z"] =
      [Debt.mk "A" "X" 1, Debt.mk "B" "Y" 1] := by
    rw [calculate_debts, hbal]
    simp +decide [simplifyDebts, debtorsOf, creditorsOf, sortAsc, sortDesc]
    norm_num [insertAsc, insertDesc, loopAux, abs_eq_max_neg, min_def,
      max_def]
  rw [hdebts, hbal]
  intro hcon
  simp +decide [netAfter, lookupBal] at hcon
  norm_num [abs_eq_max_neg, max_def] at hcon
